import Mathlib

/-!
Verification of the minefield engine of egui-minesweep-rs (src/minefield.rs),
shallowly embedded in Lean 4.  Machine integers (i32, u16, usize) are modelled
as Nat/Int; all values handled by the engine are small and nonnegative, so no
wrap-around occurs on the modelled inputs.
-/

namespace Minesweep

/-- `SpotKind` from src/minefield.rs: a mine, or an empty spot with the count
of neighboring mines (an i32 in the source, modelled as Int). -/
inductive SpotKind
  | Mine
  | Empty (n : Int)
deriving DecidableEq, Repr

/-- `SpotState` from src/minefield.rs. -/
inductive SpotState
  | Hidden
  | Revealed
  | Flagged
deriving DecidableEq, Repr

/-- `Spot` from src/minefield.rs. -/
structure Spot where
  kind : SpotKind
  state : SpotState
deriving DecidableEq, Repr

/-- `Spot::default()`: an `Empty(0)`, `Hidden` spot. -/
def Spot.dflt : Spot := ⟨SpotKind.Empty 0, SpotState.Hidden⟩

/-- `StepResult` from src/minefield.rs. -/
inductive StepResult
  | Phew
  | Boom
  | Invalid
deriving DecidableEq, Repr

/-- `Minefield` from src/minefield.rs.  `width`, `height`, `mines` are i32 in
the source but always hold nonnegative values (set at construction); `width`
and `height` are modelled as Nat, `mines` as Int (it is never reassigned after
`new`, faithfully mirroring the source). -/
structure Minefield where
  field : List Spot
  mines : Int
  width : Nat
  height : Nat
deriving DecidableEq, Repr

/-- Read the spot at a flat index (`self.field[i]`; out-of-range reads do not
occur in the source and are given the default spot here). -/
def Minefield.spotAt (mf : Minefield) (i : Nat) : Spot :=
  mf.field.getD i Spot.dflt

def Minefield.kindAt (mf : Minefield) (i : Nat) : SpotKind :=
  (mf.spotAt i).kind

def Minefield.stateAt (mf : Minefield) (i : Nat) : SpotState :=
  (mf.spotAt i).state

/-- Write the spot at a flat index (`self.field[i] = ...`). -/
def Minefield.setSpot (mf : Minefield) (i : Nat) (s : Spot) : Minefield :=
  { mf with field := mf.field.set i s }

/-- `self.field[i].state = st` (the kind is kept). -/
def Minefield.setState (mf : Minefield) (i : Nat) (st : SpotState) : Minefield :=
  mf.setSpot i ⟨mf.kindAt i, st⟩

/-- `Minefield::new(width, height)` (src/minefield.rs lines 79-97): width is
forced to at least 3, height to at least 1, and the field is `width * height`
default spots. -/
def Minefield.new (width height : Nat) : Minefield :=
  let w := if width < 3 then 3 else width
  let h := if height = 0 then 1 else height
  { field := List.replicate (w * h) Spot.dflt, mines := 0, width := w, height := h }

/-- `Minefield::spot_index(x, y)` (lines 317-324); the u16 coordinates are
nonnegative so only the upper bounds are checked. -/
def Minefield.spotIndex (mf : Minefield) (x y : Nat) : Option Nat :=
  if x < mf.width ∧ y < mf.height then some (y * mf.width + x) else none

/-- `Minefield::spot_coords(index)` (lines 327-332). -/
def Minefield.spotCoords (mf : Minefield) (index : Nat) : Nat × Nat :=
  (index % mf.width, index / mf.width)

/-- The nine candidate indices enumerated by `Minefield::neighbor_indices`
(lines 277-297): the chained ranges `index_start..=index_start+2`,
`base-1..=base+1`, `index_end-2..=index_end`. -/
def neighborCandidates (width b : Int) : List Int :=
  [b - (width + 1), b - (width + 1) + 1, b - (width + 1) + 2,
   b - 1, b, b + 1,
   b + (width + 1) - 2, b + (width + 1) - 1, b + (width + 1)]

/-- `Minefield::neighbor_indices(index)` (lines 271-314).  The i32 `/` and `%`
of the source truncate toward zero, which is `Int.tdiv` / `Int.tmod`. -/
def Minefield.neighborIndices (mf : Minefield) (index : Nat) : List Nat :=
  let width : Int := mf.width
  let b : Int := index
  let indexMax : Int := mf.field.length
  let y := Int.tdiv b width
  let x := Int.tmod b width
  ((neighborCandidates width b).filter (fun i =>
    decide ((0 ≤ i ∧ i < indexMax) ∧ i ≠ b ∧
      (y - 1 ≤ Int.tdiv i width ∧ Int.tdiv i width ≤ y + 1) ∧
      (x - 1 ≤ Int.tmod i width ∧ Int.tmod i width ≤ x + 1)))).map Int.toNat

/-- The neighbor-count update done by `Minefield::place_mine` on one spot:
an empty spot's count is incremented, a mine is left alone. -/
def incSpot (s : Spot) : Spot :=
  match s.kind with
  | SpotKind.Empty n => ⟨SpotKind.Empty (n + 1), s.state⟩
  | SpotKind.Mine => s

/-- The neighbor-update loop of `Minefield::place_mine` (lines 261-266):
each neighboring empty spot has its count incremented. -/
def incNeighbors : Minefield → List Nat → Minefield
  | mf, [] => mf
  | mf, j :: ns =>
    match mf.kindAt j with
    | SpotKind.Empty n =>
      incNeighbors (mf.setSpot j ⟨SpotKind.Empty (n + 1), mf.stateAt j⟩) ns
    | SpotKind.Mine => incNeighbors mf ns

/-- `Minefield::place_mine(index)` (lines 252-268).  The source asserts
`index < self.field.len()`; the assertion never fires on the call sites and is
modelled as a guard. -/
def Minefield.placeMine (mf : Minefield) (index : Nat) : Minefield :=
  if index < mf.field.length then
    match mf.kindAt index with
    | SpotKind.Empty _ =>
      let mf1 := mf.setSpot index ⟨SpotKind.Mine, mf.stateAt index⟩
      incNeighbors mf1 (mf1.neighborIndices index)
    | SpotKind.Mine => mf
  else mf

/-- `Vec::swap_remove(i)`: the element at `i` is replaced by the last element
and the last slot is dropped. -/
def swapRemove (l : List Nat) (i : Nat) : List Nat :=
  (l.set i (l.getLastD 0)).dropLast

/-- The mine-placement loop of `Minefield::with_mines` (lines 115-122).  Each
draw of `rng.gen_range(0..spots_remaining.len())` is modelled as an arbitrary
externally supplied number reduced mod the pool size. -/
def Minefield.placeMinesLoop : Minefield → List Nat → Nat → (Nat → Nat) → Minefield
  | mf, _, 0, _ => mf
  | mf, pool, k + 1, rng =>
    let r := rng 0 % pool.length
    let idx := pool.getD r 0
    Minefield.placeMinesLoop (mf.placeMine idx) (swapRemove pool r) k (fun t => rng (t + 1))

/-- `Minefield::with_mines(mines)` (lines 100-125): the requested count is
clamped to the number of spots, then that many mines are placed by drawing
without replacement from the pool of all indices.  Note that the source never
assigns `self.mines`. -/
def Minefield.withMines (mf : Minefield) (m : Nat) (rng : Nat → Nat) : Minefield :=
  let spotCount := mf.width * mf.height
  let mines := if m ≤ spotCount then m else spotCount
  mf.placeMinesLoop (List.range spotCount) mines rng

/-- The number of spots whose state is `Hidden`; used as fuel bound for the
flood-reveal worklist loop. -/
def hiddenCount (mf : Minefield) : Nat :=
  mf.field.countP (fun s => decide (s.state = SpotState.Hidden))

/-- The body of the `while let` loop of `Minefield::flood_neighbors_reveal`
(lines 237-247): visit each neighbor of the popped index in order, revealing
hidden empty ones and pushing those whose own count is zero onto the
worklist. -/
def floodVisit : Minefield → List Nat → List Nat → Minefield × List Nat
  | mf, stack, [] => (mf, stack)
  | mf, stack, j :: ns =>
    match mf.stateAt j, mf.kindAt j with
    | SpotState.Hidden, SpotKind.Empty n =>
      floodVisit (mf.setState j SpotState.Revealed)
        (if n = 0 then j :: stack else stack) ns
    | _, _ => floodVisit mf stack ns

/-- The worklist loop of `Minefield::flood_neighbors_reveal`, with explicit
fuel.  Each iteration pops one index and visits its neighbors; the number of
hidden spots plus the worklist length strictly decreases, so any fuel of at
least that measure makes the fuel bound unreachable. -/
def floodLoopF : Nat → Minefield → List Nat → Minefield
  | 0, mf, _ => mf
  | _ + 1, mf, [] => mf
  | fuel + 1, mf, index :: rest =>
    let p := floodVisit mf rest (mf.neighborIndices index)
    floodLoopF fuel p.1 p.2

/-- `Minefield::flood_neighbors_reveal(index)` (lines 233-249): worklist
seeded with `index`; the fuel `hiddenCount mf + 2` exceeds the loop measure,
so the loop always runs to completion. -/
def Minefield.floodNeighborsReveal (mf : Minefield) (index : Nat) : Minefield :=
  floodLoopF (hiddenCount mf + 2) mf [index]

/-- `Minefield::step(x, y)` (lines 128-156). -/
def Minefield.step (mf : Minefield) (x y : Nat) : Minefield × StepResult :=
  match mf.spotIndex x y with
  | some index =>
    match mf.kindAt index with
    | SpotKind.Mine => (mf.setState index SpotState.Revealed, StepResult.Boom)
    | SpotKind.Empty n =>
      let mf1 := mf.setState index SpotState.Revealed
      if n = 0 then (mf1.floodNeighborsReveal index, StepResult.Phew)
      else (mf1, StepResult.Phew)
  | none => (mf, StepResult.Invalid)

/-- The neighbor-stepping loop of `Minefield::try_resolve_step`
(lines 177-185): step on each still-hidden neighbor, stopping at a `Boom`. -/
def Minefield.resolveLoop : Minefield → List Nat → Minefield × StepResult
  | mf, [] => (mf, StepResult.Phew)
  | mf, j :: rest =>
    if mf.stateAt j = SpotState.Hidden then
      let c := mf.spotCoords j
      let r := mf.step c.1 c.2
      if r.2 = StepResult.Boom then (r.1, StepResult.Boom)
      else Minefield.resolveLoop r.1 rest
    else Minefield.resolveLoop mf rest

/-- The flagged-neighbor count computed by `Minefield::try_resolve_step`
(lines 168-174), an i32 in the source. -/
def Minefield.flagCountAt (mf : Minefield) (index : Nat) : Int :=
  ((mf.neighborIndices index).countP
    (fun i => decide (mf.stateAt i = SpotState.Flagged)) : Nat)

/-- `Minefield::try_resolve_step(x, y)` (lines 163-195). -/
def Minefield.tryResolveStep (mf : Minefield) (x y : Nat) : Minefield × StepResult :=
  match mf.spotIndex x y with
  | some index =>
    match mf.stateAt index with
    | SpotState.Revealed =>
      match mf.kindAt index with
      | SpotKind.Empty n =>
        if 0 < n then
          if n = mf.flagCountAt index then mf.resolveLoop (mf.neighborIndices index)
          else (mf, StepResult.Invalid)
        else (mf, StepResult.Invalid)
      | SpotKind.Mine => (mf, StepResult.Invalid)
    | _ => (mf, StepResult.Invalid)
  | none => (mf, StepResult.Invalid)

/-- `Minefield::flag(x, y)` (lines 198-210). -/
def Minefield.flag (mf : Minefield) (x y : Nat) : Minefield :=
  match mf.spotIndex x y with
  | some index =>
    match mf.stateAt index with
    | SpotState.Hidden => mf.setState index SpotState.Flagged
    | SpotState.Flagged => mf.setState index SpotState.Hidden
    | SpotState.Revealed => mf
  | none => mf

/-- `Minefield::mines()` (lines 220-222): `self.mines as u16`. -/
def Minefield.minesU16 (mf : Minefield) : Nat :=
  mf.mines.toNat % 65536

/-- Result type of the flag-toggle operation as described by spec section 4.4
(the toggle used by the app layer; the `flag` of src/minefield.rs returns no
report). -/
inductive FlagToggleResult
  | Added
  | Removed
  | None
deriving DecidableEq, Repr

/-- Modelled from the spec: `toggle_flag(x, y)` of spec section 4.4.  The
repository's app layer calls a toggle that reports `Added`/`Removed`/`None`,
but that function is not part of src/src/minefield.rs (whose `flag` performs
the same state transitions and returns nothing); the report is taken from the
words of the spec. -/
def Minefield.toggleFlag (mf : Minefield) (x y : Nat) : Minefield × FlagToggleResult :=
  match mf.spotIndex x y with
  | some index =>
    match mf.stateAt index with
    | SpotState.Hidden => (mf.setState index SpotState.Flagged, FlagToggleResult.Added)
    | SpotState.Flagged => (mf.setState index SpotState.Hidden, FlagToggleResult.Removed)
    | SpotState.Revealed => (mf, FlagToggleResult.None)
  | none => (mf, FlagToggleResult.None)

/-- Modelled from the spec: `is_cleared()` of spec section 4.5, "Returns true
iff every non-mine cell has visibility = Revealed".  The function is called by
the repository's app layer but is not part of src/src/minefield.rs. -/
def Minefield.isCleared (mf : Minefield) : Bool :=
  mf.field.all (fun s =>
    decide (s.kind = SpotKind.Mine ∨ s.state = SpotState.Revealed))

/-- Number of spots whose state is `Revealed`. -/
def revealedCount (mf : Minefield) : Nat :=
  mf.field.countP (fun s => decide (s.state = SpotState.Revealed))

/-- Number of spots whose kind is `Mine`. -/
def numMines (mf : Minefield) : Nat :=
  mf.field.countP (fun s => decide (s.kind = SpotKind.Mine))

/-- `a` and `b` differ by at most one (as naturals). -/
def near (a b : Nat) : Bool :=
  a ≤ b + 1 && b ≤ a + 1

/-- Specification-level grid adjacency: distinct flat indices whose (x, y)
coordinates in a grid of the given width differ by at most 1 on each axis
(8-connectivity). -/
def adjacentB (w i j : Nat) : Bool :=
  (j != i) && near (i % w) (j % w) && near (i / w) (j / w)

/-- Specification-level neighbor list: all in-range flat indices adjacent
to `i`. -/
def specNeighbors (mf : Minefield) (i : Nat) : List Nat :=
  (List.range mf.field.length).filter (fun j => adjacentB mf.width i j)

/-- The exact number of mines among the grid-adjacent in-range neighbors of
cell `i` (specification-level count). -/
def mineNbrCount (mf : Minefield) (i : Nat) : Nat :=
  (specNeighbors mf i).countP (fun j => decide (mf.kindAt j = SpotKind.Mine))

/-- The neighbor-count invariant of the spec: every `Empty(n)` cell has `n`
equal to the exact number of mines among its grid-adjacent neighbors. -/
def countsOk (mf : Minefield) : Prop :=
  ∀ i < mf.field.length, ∀ n, mf.kindAt i = SpotKind.Empty n → n = (mineNbrCount mf i : Int)

/-- Well-formedness established by `Minefield::new`: width at least 3, height
at least 1, and the field length agreeing with the grid dimensions. -/
def WF (mf : Minefield) : Prop :=
  3 ≤ mf.width ∧ 1 ≤ mf.height ∧ mf.field.length = mf.width * mf.height

instance : DecidablePred WF := fun mf => by
  unfold WF; infer_instance

/-- A public mutating operation on the minefield (coordinates come from the
UI layer as u16 values). -/
inductive Op
  | opStep (x y : Nat)
  | opResolve (x y : Nat)
  | opFlag (x y : Nat)

/-- Apply one public operation, discarding the reported result. -/
def applyOp (mf : Minefield) : Op → Minefield
  | Op.opStep x y => (mf.step x y).1
  | Op.opResolve x y => (mf.tryResolveStep x y).1
  | Op.opFlag x y => mf.flag x y

/-- Apply a sequence of public operations. -/
def applyOps (mf : Minefield) (ops : List Op) : Minefield :=
  ops.foldl applyOp mf

/-- The zero-region reachability relation used to state flood-fill
correctness: `Reach mf s j` holds iff `j` is `s` itself or can be reached
from `s` by repeatedly moving to a grid neighbor of a zero-count empty cell.
The cells `j` with `Reach mf s j` and empty kind are exactly the maximal
connected zero-count region of `s` together with its bordering numbered
cells. -/
inductive Reach (mf : Minefield) (s : Nat) : Nat → Prop
  | refl : Reach mf s s
  | push (i j : Nat) : Reach mf s i → mf.kindAt i = SpotKind.Empty 0 →
      j ∈ mf.neighborIndices i → Reach mf s j

/-! ### Concrete minefields used in counterexamples and witnesses -/

/-- A 4-by-1 field with one mine at index 0 (kinds: Mine, 1, 0, 0), then:
flag (3,0), step (2,0) (reveals 1 and 2; the flag blocks the flood), and
step (0,0) (Boom, reveals the mine).  States end Revealed, Revealed,
Revealed, Flagged. -/
def exC6 : Minefield :=
  (((((Minefield.new 4 1).withMines 1 (fun _ => 0)).flag 3 0).step 2 0).1.step 0 0).1

/-- A 5-by-1 all-zero field where flags at 1 and 3 confined a first zero-step
at (2,0) to the single cell 2, after which both flags were removed again:
cell 2 is Revealed, all other cells are Hidden zero-count cells. -/
def exC2 : Minefield :=
  (((((((Minefield.new 5 1).withMines 0 (fun _ => 0)).flag 1 0).flag 3 0).step
    2 0).1.flag 1 0).flag 3 0)

/-- A 3-by-1 field with one mine at index 2 (kinds: 0, 1, Mine), the mine
flagged and the numbered cell (1,0) revealed. -/
def exC3 : Minefield :=
  ((((Minefield.new 3 1).withMines 1 (fun _ => 2)).flag 2 0).step 1 0).1

/-! ### Basic lemmas about spots and field access -/

@[simp]
lemma setSpot_length (mf : Minefield) (i : Nat) (s : Spot) :
    (mf.setSpot i s).field.length = mf.field.length := by
  simp [Minefield.setSpot]

@[simp]
lemma setSpot_width (mf : Minefield) (i : Nat) (s : Spot) :
    (mf.setSpot i s).width = mf.width := rfl

@[simp]
lemma setSpot_height (mf : Minefield) (i : Nat) (s : Spot) :
    (mf.setSpot i s).height = mf.height := rfl

@[simp]
lemma setSpot_mines (mf : Minefield) (i : Nat) (s : Spot) :
    (mf.setSpot i s).mines = mf.mines := rfl

lemma spotAt_setSpot_self {mf : Minefield} {i : Nat} (s : Spot)
    (h : i < mf.field.length) : (mf.setSpot i s).spotAt i = s := by
  simp [Minefield.spotAt, Minefield.setSpot, List.getD_eq_getElem?_getD,
    List.getElem?_set_self h]

lemma spotAt_setSpot_ne {mf : Minefield} {i j : Nat} (s : Spot) (h : i ≠ j) :
    (mf.setSpot i s).spotAt j = mf.spotAt j := by
  simp [Minefield.spotAt, Minefield.setSpot, List.getD_eq_getElem?_getD,
    List.getElem?_set_ne h]

lemma setSpot_oob {mf : Minefield} {i : Nat} (s : Spot)
    (h : mf.field.length ≤ i) : mf.setSpot i s = mf := by
  unfold Minefield.setSpot
  rw [List.set_eq_of_length_le h]

@[simp]
lemma setState_length (mf : Minefield) (i : Nat) (st : SpotState) :
    (mf.setState i st).field.length = mf.field.length := by
  simp [Minefield.setState]

@[simp]
lemma setState_width (mf : Minefield) (i : Nat) (st : SpotState) :
    (mf.setState i st).width = mf.width := rfl

@[simp]
lemma setState_height (mf : Minefield) (i : Nat) (st : SpotState) :
    (mf.setState i st).height = mf.height := rfl

@[simp]
lemma setState_mines (mf : Minefield) (i : Nat) (st : SpotState) :
    (mf.setState i st).mines = mf.mines := rfl

lemma kindAt_setState (mf : Minefield) (i : Nat) (st : SpotState) (j : Nat) :
    (mf.setState i st).kindAt j = mf.kindAt j := by
  by_cases hij : i = j
  · subst hij
    by_cases hl : i < mf.field.length
    · simp [Minefield.setState, Minefield.kindAt, spotAt_setSpot_self _ hl]
    · rw [Minefield.setState, setSpot_oob _ (Nat.le_of_not_lt hl)]
  · simp [Minefield.setState, Minefield.kindAt, spotAt_setSpot_ne _ hij]

lemma stateAt_setState_self {mf : Minefield} {i : Nat} (st : SpotState)
    (h : i < mf.field.length) : (mf.setState i st).stateAt i = st := by
  simp [Minefield.setState, Minefield.stateAt, spotAt_setSpot_self _ h]

lemma stateAt_setState_ne {mf : Minefield} {i j : Nat} (st : SpotState)
    (h : i ≠ j) : (mf.setState i st).stateAt j = mf.stateAt j := by
  simp [Minefield.setState, Minefield.stateAt, spotAt_setSpot_ne _ h]

lemma spotAt_eq_getElem {mf : Minefield} {i : Nat} (h : i < mf.field.length) :
    mf.spotAt i = mf.field[i] := by
  simp [Minefield.spotAt, List.getD_eq_getElem?_getD, List.getElem?_eq_getElem h]

/-- Setting an index to the spot it already holds changes nothing. -/
lemma setSpot_spotAt_self (mf : Minefield) (i : Nat) :
    mf.setSpot i (mf.spotAt i) = mf := by
  by_cases h : i < mf.field.length
  · have hf : mf.field.set i (mf.spotAt i) = mf.field := by
      apply List.ext_getElem?
      intro n
      by_cases hn : i = n
      · subst hn
        rw [List.getElem?_set_self h, spotAt_eq_getElem h,
          List.getElem?_eq_getElem h]
      · rw [List.getElem?_set_ne hn]
    unfold Minefield.setSpot
    rw [hf]
  · exact setSpot_oob _ (Nat.le_of_not_lt h)

/-! ### The neighbor-index characterization -/

lemma tdiv_natCast (m n : Nat) :
    Int.tdiv (m : Int) (n : Int) = ((m / n : Nat) : Int) := rfl

lemma tmod_natCast (m n : Nat) :
    Int.tmod (m : Int) (n : Int) = ((m % n : Nat) : Int) := rfl

lemma adjacentB_iff (w i j : Nat) :
    adjacentB w i j = true ↔
      (j ≠ i ∧ (i % w ≤ j % w + 1 ∧ j % w ≤ i % w + 1) ∧
        (i / w ≤ j / w + 1 ∧ j / w ≤ i / w + 1)) := by
  simp [adjacentB, near, Bool.and_eq_true, decide_eq_true_eq, bne_iff_ne,
    and_assoc]

lemma adjacentB_symm (w i j : Nat) :
    adjacentB w i j = true ↔ adjacentB w j i = true := by
  rw [adjacentB_iff, adjacentB_iff]
  omega

/-- Every index produced by `neighbor_indices` is inside the field vector
(no hypotheses needed: the filter itself checks the bound). -/
lemma neighborIndices_lt {mf : Minefield} {i j : Nat}
    (h : j ∈ mf.neighborIndices i) : j < mf.field.length := by
  simp only [Minefield.neighborIndices, List.mem_map, List.mem_filter,
    decide_eq_true_eq] at h
  obtain ⟨z, ⟨-, ⟨hz0, hzL⟩, -⟩, rfl⟩ := h
  omega

/-- Membership characterization of `neighbor_indices` for a well-formed width:
the produced indices are exactly the in-range spec-adjacent indices. -/
lemma mem_neighborIndices {mf : Minefield} {i : Nat} (hw : 3 ≤ mf.width)
    (j : Nat) :
    j ∈ mf.neighborIndices i ↔
      (j < mf.field.length ∧ adjacentB mf.width i j = true) := by
  constructor
  · intro hj
    simp only [Minefield.neighborIndices, List.mem_map, List.mem_filter,
      decide_eq_true_eq] at hj
    obtain ⟨z, ⟨hzc, ⟨hz0, hzL⟩, hzb, ⟨hdy1, hdy2⟩, hdx1, hdx2⟩, rfl⟩ := hj
    have hzn : z = ((z.toNat : Nat) : Int) := (Int.toNat_of_nonneg hz0).symm
    rw [hzn] at hzL hzb hdy1 hdy2 hdx1 hdx2
    simp only [tdiv_natCast, tmod_natCast] at hdy1 hdy2 hdx1 hdx2
    rw [adjacentB_iff]
    omega
  · rintro ⟨hjL, hadj⟩
    rw [adjacentB_iff] at hadj
    simp only [Minefield.neighborIndices, List.mem_map, List.mem_filter,
      decide_eq_true_eq]
    refine ⟨(j : Int), ⟨?_, ?_⟩, by simp⟩
    · -- the spec-adjacent index is among the nine candidates
      have hqi := Nat.div_add_mod i mf.width
      have hqj := Nat.div_add_mod j mf.width
      have key : (j : Int) - (i : Int) =
          (mf.width : Int) * (((j / mf.width : Nat) : Int) - ((i / mf.width : Nat) : Int))
            + (((j % mf.width : Nat) : Int) - ((i % mf.width : Nat) : Int)) := by
        have hqi' : ((mf.width : Int)) * ((i / mf.width : Nat) : Int)
            + ((i % mf.width : Nat) : Int) = (i : Int) := by exact_mod_cast congrArg Nat.cast hqi
        have hqj' : ((mf.width : Int)) * ((j / mf.width : Nat) : Int)
            + ((j % mf.width : Nat) : Int) = (j : Int) := by exact_mod_cast congrArg Nat.cast hqj
        linear_combination hqi' - hqj'
      have hdy : ((j / mf.width : Nat) : Int) - ((i / mf.width : Nat) : Int) = -1 ∨
          ((j / mf.width : Nat) : Int) - ((i / mf.width : Nat) : Int) = 0 ∨
          ((j / mf.width : Nat) : Int) - ((i / mf.width : Nat) : Int) = 1 := by omega
      have hdx : ((j % mf.width : Nat) : Int) - ((i % mf.width : Nat) : Int) = -1 ∨
          ((j % mf.width : Nat) : Int) - ((i % mf.width : Nat) : Int) = 0 ∨
          ((j % mf.width : Nat) : Int) - ((i % mf.width : Nat) : Int) = 1 := by omega
      simp only [neighborCandidates, List.mem_cons, List.not_mem_nil, or_false]
      rcases hdy with h1 | h1 | h1 <;> rcases hdx with h2 | h2 | h2 <;>
        rw [h1, h2] at key <;> omega
    · rw [tdiv_natCast, tmod_natCast, tdiv_natCast, tmod_natCast]
      omega

lemma neighborCandidates_nodup {w b : Int} (hw : 3 ≤ w) :
    (neighborCandidates w b).Nodup := by
  simp only [neighborCandidates, List.nodup_cons, List.mem_cons,
    List.not_mem_nil, or_false, List.nodup_nil, and_true, not_or,
    not_false_eq_true]
  omega

lemma neighborIndices_nodup {mf : Minefield} (hw : 3 ≤ mf.width) (i : Nat) :
    (mf.neighborIndices i).Nodup := by
  unfold Minefield.neighborIndices
  apply List.Nodup.map_on
  · intro x hx y hy hxy
    have hx0 : 0 ≤ x := by
      have := (List.mem_filter.mp hx).2
      simp only [decide_eq_true_eq] at this
      exact this.1.1
    have hy0 : 0 ≤ y := by
      have := (List.mem_filter.mp hy).2
      simp only [decide_eq_true_eq] at this
      exact this.1.1
    rw [← Int.toNat_of_nonneg hx0, ← Int.toNat_of_nonneg hy0, hxy]
  · exact (neighborCandidates_nodup (by exact_mod_cast hw)).filter _

/-- `neighbor_indices` depends only on the width and field length. -/
lemma neighborIndices_congr {mf mf' : Minefield} (hw : mf'.width = mf.width)
    (hl : mf'.field.length = mf.field.length) :
    mf'.neighborIndices = mf.neighborIndices := by
  funext i
  simp [Minefield.neighborIndices, hw, hl]

/-! ### Counting and flood-loop lemmas -/

lemma setState_oob {mf : Minefield} {i : Nat} (st : SpotState)
    (h : mf.field.length ≤ i) : mf.setState i st = mf :=
  setSpot_oob _ h

lemma countP_set_add {α : Type} (l : List α) (p : α → Bool) (i : Nat) (a : α)
    (h : i < l.length) :
    (l.set i a).countP p + (if p l[i] then 1 else 0)
      = l.countP p + (if p a then 1 else 0) := by
  induction l generalizing i with
  | nil => simp at h
  | cons x t ih =>
    cases i with
    | zero =>
      simp only [List.set_cons_zero, List.countP_cons, List.getElem_cons_zero]
      omega
    | succ n =>
      simp only [List.set_cons_succ, List.countP_cons, List.getElem_cons_succ]
      have := ih n (by simpa using h)
      omega

lemma hiddenCount_reveal {mf : Minefield} {j : Nat} (hj : j < mf.field.length)
    (hh : mf.stateAt j = SpotState.Hidden) :
    hiddenCount (mf.setState j SpotState.Revealed) + 1 = hiddenCount mf := by
  have hkey := countP_set_add mf.field
    (fun s => decide (s.state = SpotState.Hidden)) j
    ⟨mf.kindAt j, SpotState.Revealed⟩ hj
  have hfj : mf.field[j].state = SpotState.Hidden := by
    rw [← spotAt_eq_getElem hj]; exact hh
  simp only [hfj, decide_eq_true_eq] at hkey
  rw [if_pos trivial] at hkey
  rw [if_neg (by intro hcon; cases hcon)] at hkey
  simp only [hiddenCount, Minefield.setState, Minefield.setSpot]
  omega

lemma floodVisit_dims (ns : List Nat) :
    ∀ (mf : Minefield) (stack : List Nat),
      (floodVisit mf stack ns).1.width = mf.width ∧
      (floodVisit mf stack ns).1.height = mf.height ∧
      (floodVisit mf stack ns).1.mines = mf.mines ∧
      (floodVisit mf stack ns).1.field.length = mf.field.length := by
  induction ns with
  | nil => intro mf stack; exact ⟨rfl, rfl, rfl, rfl⟩
  | cons j ns ih =>
    intro mf stack
    unfold floodVisit
    rcases h1 : mf.stateAt j with _ | _ | _ <;>
      rcases h2 : mf.kindAt j with _ | n <;>
      simp only [] <;>
      first
      | exact ih mf stack
      | · obtain ⟨a, b, c, d⟩ := ih (mf.setState j SpotState.Revealed)
            (if n = 0 then j :: stack else stack)
          exact ⟨by rw [a]; rfl, by rw [b]; rfl, by rw [c]; rfl, by rw [d]; simp⟩

lemma floodVisit_kindAt (ns : List Nat) :
    ∀ (mf : Minefield) (stack : List Nat) (j : Nat),
      (floodVisit mf stack ns).1.kindAt j = mf.kindAt j := by
  induction ns with
  | nil => intro mf stack j; rfl
  | cons k ns ih =>
    intro mf stack j
    unfold floodVisit
    rcases h1 : mf.stateAt k with _ | _ | _ <;>
      rcases h2 : mf.kindAt k with _ | n <;>
      simp only [] <;>
      first
      | exact ih mf stack j
      | rw [ih _ _ j, kindAt_setState]

/-- State frame of one visiting pass: a spot either keeps its state, or it was
a hidden empty spot in the visited list and is now revealed. -/
lemma floodVisit_stateAt (ns : List Nat) :
    ∀ (mf : Minefield) (stack : List Nat) (j : Nat),
      (floodVisit mf stack ns).1.stateAt j = mf.stateAt j ∨
      (mf.stateAt j = SpotState.Hidden ∧ (∃ n, mf.kindAt j = SpotKind.Empty n) ∧
        (floodVisit mf stack ns).1.stateAt j = SpotState.Revealed ∧ j ∈ ns) := by
  induction ns with
  | nil => intro mf stack j; exact Or.inl rfl
  | cons k ns ih =>
    intro mf stack j
    unfold floodVisit
    rcases h1 : mf.stateAt k with _ | _ | _ <;>
      rcases h2 : mf.kindAt k with _ | n <;>
      simp only []
    case Hidden.Empty =>
      by_cases hk : k < mf.field.length
      · rcases ih (mf.setState k SpotState.Revealed)
          (if n = 0 then k :: stack else stack) j with h | ⟨ha, ⟨m, hb⟩, hc, hd⟩
        · by_cases hkj : k = j
          · subst hkj
            rw [stateAt_setState_self _ hk] at h
            exact Or.inr ⟨h1, ⟨n, h2⟩, h, List.mem_cons_self _ _⟩
          · rw [stateAt_setState_ne _ hkj] at h
            exact Or.inl h
        · by_cases hkj : k = j
          · subst hkj
            rw [stateAt_setState_self _ hk] at ha
            cases ha
          · rw [stateAt_setState_ne _ hkj] at ha
            rw [kindAt_setState] at hb
            exact Or.inr ⟨ha, ⟨m, hb⟩, hc, List.mem_cons_of_mem _ hd⟩
      · rw [setState_oob _ (Nat.le_of_not_lt hk)]
        rcases ih mf (if n = 0 then k :: stack else stack) j with h | ⟨ha, hb, hc, hd⟩
        · exact Or.inl h
        · exact Or.inr ⟨ha, hb, hc, List.mem_cons_of_mem _ hd⟩
    all_goals
      rcases ih mf stack j with h | ⟨ha, hb, hc, hd⟩
    all_goals
      first
      | exact Or.inl h
      | exact Or.inr ⟨ha, hb, hc, List.mem_cons_of_mem _ hd⟩

lemma floodVisit_mono_revealed {ns : List Nat} {mf : Minefield}
    {stack : List Nat} {j : Nat} (h : mf.stateAt j = SpotState.Revealed) :
    (floodVisit mf stack ns).1.stateAt j = SpotState.Revealed := by
  rcases floodVisit_stateAt ns mf stack j with h' | ⟨ha, -, -, -⟩
  · rw [h', h]
  · rw [h] at ha; cases ha

lemma floodVisit_mono_notHidden {ns : List Nat} {mf : Minefield}
    {stack : List Nat} {j : Nat} (h : mf.stateAt j ≠ SpotState.Hidden) :
    (floodVisit mf stack ns).1.stateAt j ≠ SpotState.Hidden := by
  rcases floodVisit_stateAt ns mf stack j with h' | ⟨-, -, hc, -⟩
  · rw [h']; exact h
  · rw [hc]; intro hcon; cases hcon

lemma floodVisit_measure (ns : List Nat) :
    ∀ (mf : Minefield) (stack : List Nat),
      (∀ j ∈ ns, j < mf.field.length) →
      hiddenCount (floodVisit mf stack ns).1 + (floodVisit mf stack ns).2.length
        ≤ hiddenCount mf + stack.length := by
  induction ns with
  | nil => intro mf stack _; exact Nat.le_refl _
  | cons k ns ih =>
    intro mf stack hlt
    have hk : k < mf.field.length := hlt k (List.mem_cons_self _ _)
    unfold floodVisit
    rcases h1 : mf.stateAt k with _ | _ | _ <;>
      rcases h2 : mf.kindAt k with _ | n <;>
      simp only []
    case Hidden.Empty =>
      have hrev := hiddenCount_reveal hk h1
      have hlt' : ∀ j ∈ ns, j < (mf.setState k SpotState.Revealed).field.length := by
        intro j hj; rw [setState_length]; exact hlt j (List.mem_cons_of_mem _ hj)
      have hrec := ih (mf.setState k SpotState.Revealed)
        (if n = 0 then k :: stack else stack) hlt'
      have hpush : (if n = 0 then k :: stack else stack).length ≤ stack.length + 1 := by
        by_cases hn : n = 0
        · rw [if_pos hn, List.length_cons]
        · rw [if_neg hn]; omega
      omega
    all_goals
      exact ih mf stack (fun j hj => hlt j (List.mem_cons_of_mem _ hj))

/-- After one pass every in-range empty spot in the visited list ends up
non-hidden. -/
lemma floodVisit_visited (ns : List Nat) :
    ∀ (mf : Minefield) (stack : List Nat),
      (∀ j ∈ ns, j < mf.field.length) →
      ∀ j ∈ ns, (∃ n, mf.kindAt j = SpotKind.Empty n) →
      (floodVisit mf stack ns).1.stateAt j ≠ SpotState.Hidden := by
  induction ns with
  | nil => intro mf stack _ j hj; cases hj
  | cons k ns ih =>
    intro mf stack hlt j hj ⟨m, hm⟩
    have hlt' : ∀ j' ∈ ns, j' < mf.field.length :=
      fun j' hj' => hlt j' (List.mem_cons_of_mem _ hj')
    by_cases hkj : k = j
    · subst hkj
      have hk : k < mf.field.length := hlt k (List.mem_cons_self _ _)
      unfold floodVisit
      rcases h1 : mf.stateAt k with _ | _ | _ <;>
        rcases h2 : mf.kindAt k with _ | n <;>
        simp only []
      · rw [h2] at hm; cases hm
      · exact floodVisit_mono_notHidden
          (by rw [stateAt_setState_self _ hk]; intro hcon; cases hcon)
      · exact floodVisit_mono_notHidden (by rw [h1]; intro hcon; cases hcon)
      · exact floodVisit_mono_notHidden (by rw [h1]; intro hcon; cases hcon)
      · exact floodVisit_mono_notHidden (by rw [h1]; intro hcon; cases hcon)
      · exact floodVisit_mono_notHidden (by rw [h1]; intro hcon; cases hcon)
    · have hj' : j ∈ ns := by
        rcases List.mem_cons.mp hj with h | h
        · exact absurd h.symm hkj
        · exact h
      unfold floodVisit
      rcases h1 : mf.stateAt k with _ | _ | _ <;>
        rcases h2 : mf.kindAt k with _ | n <;>
        simp only []
      · exact ih mf stack hlt' j hj' ⟨m, hm⟩
      · exact ih _ _ (by simpa using hlt') j hj'
          ⟨m, by rw [kindAt_setState]; exact hm⟩
      · exact ih mf stack hlt' j hj' ⟨m, hm⟩
      · exact ih mf stack hlt' j hj' ⟨m, hm⟩
      · exact ih mf stack hlt' j hj' ⟨m, hm⟩
      · exact ih mf stack hlt' j hj' ⟨m, hm⟩

/-- Where the worklist entries after one pass come from: they were already on
the worklist, or they are zero-count empty spots of the visited list that were
hidden and have just been revealed. -/
lemma floodVisit_stack_mem (ns : List Nat) :
    ∀ (mf : Minefield) (stack : List Nat),
      (∀ j ∈ ns, j < mf.field.length) →
      ∀ j ∈ (floodVisit mf stack ns).2,
      j ∈ stack ∨ (j ∈ ns ∧ mf.kindAt j = SpotKind.Empty 0 ∧
        mf.stateAt j = SpotState.Hidden ∧
        (floodVisit mf stack ns).1.stateAt j = SpotState.Revealed) := by
  induction ns with
  | nil => intro mf stack _ j hj; exact Or.inl hj
  | cons k ns ih =>
    intro mf stack hlt j hj
    have hk : k < mf.field.length := hlt k (List.mem_cons_self _ _)
    have hlt' : ∀ j' ∈ ns, j' < mf.field.length :=
      fun j' hj' => hlt j' (List.mem_cons_of_mem _ hj')
    rw [floodVisit] at hj
    unfold floodVisit
    rcases h1 : mf.stateAt k with _ | _ | _ <;>
      rcases h2 : mf.kindAt k with _ | n <;>
      simp only [h1, h2] at hj ⊢
    case Hidden.Empty =>
      rcases ih (mf.setState k SpotState.Revealed)
          (if n = 0 then k :: stack else stack) (by simpa using hlt') j hj with
        h | ⟨ha, hb, hc, hd⟩
      · by_cases hn : n = 0
        · rw [if_pos hn] at h
          rcases List.mem_cons.mp h with h' | h'
          · subst h'
            refine Or.inr ⟨List.mem_cons_self _ _, by rw [h2, hn], h1, ?_⟩
            exact floodVisit_mono_revealed (stateAt_setState_self _ hk)
          · exact Or.inl h'
        · rw [if_neg hn] at h
          exact Or.inl h
      · by_cases hkj : k = j
        · subst hkj
          rw [stateAt_setState_self _ hk] at hc
          cases hc
        · rw [kindAt_setState] at hb
          rw [stateAt_setState_ne _ hkj] at hc
          exact Or.inr ⟨List.mem_cons_of_mem _ ha, hb, hc, hd⟩
    all_goals
      rcases ih mf stack hlt' j hj with h | ⟨ha, hb, hc, hd⟩
    all_goals
      first
      | exact Or.inl h
      | exact Or.inr ⟨List.mem_cons_of_mem _ ha, hb, hc, hd⟩

/-- The worklist only grows within one visiting pass. -/
lemma floodVisit_stack_mono (ns : List Nat) :
    ∀ (mf : Minefield) (stack : List Nat) (j : Nat), j ∈ stack →
      j ∈ (floodVisit mf stack ns).2 := by
  induction ns with
  | nil => intro mf stack j hj; exact hj
  | cons k ns ih =>
    intro mf stack j hj
    unfold floodVisit
    rcases h1 : mf.stateAt k with _ | _ | _ <;>
      rcases h2 : mf.kindAt k with _ | n <;>
      simp only []
    case Hidden.Empty =>
      apply ih
      by_cases hn : n = 0
      · rw [if_pos hn]; exact List.mem_cons_of_mem _ hj
      · rw [if_neg hn]; exact hj
    all_goals exact ih mf stack j hj

/-- A zero-count spot revealed during a visiting pass is pushed onto the
worklist. -/
lemma floodVisit_newzero_pushed (ns : List Nat) :
    ∀ (mf : Minefield) (stack : List Nat) (j : Nat),
      mf.stateAt j = SpotState.Hidden →
      (floodVisit mf stack ns).1.stateAt j = SpotState.Revealed →
      mf.kindAt j = SpotKind.Empty 0 →
      j ∈ (floodVisit mf stack ns).2 := by
  induction ns with
  | nil =>
    intro mf stack j hh hr _
    rw [floodVisit] at hr
    rw [hh] at hr
    cases hr
  | cons k ns ih =>
    intro mf stack j hh hr h0
    rw [floodVisit] at hr ⊢
    rcases h1 : mf.stateAt k with _ | _ | _ <;>
      rcases h2 : mf.kindAt k with _ | n <;>
      simp only [h1, h2] at hr ⊢
    case Hidden.Empty =>
      by_cases hkj : k = j
      · subst hkj
        have hn : n = 0 := by rw [h2] at h0; cases h0; rfl
        subst hn
        apply floodVisit_stack_mono
        rw [if_pos rfl]
        exact List.mem_cons_self _ _
      · apply ih
        · rw [stateAt_setState_ne _ hkj]; exact hh
        · exact hr
        · rw [kindAt_setState]; exact h0
    all_goals exact ih mf stack j hh hr h0

@[simp]
lemma floodLoopF_zero (mf : Minefield) (stack : List Nat) :
    floodLoopF 0 mf stack = mf := rfl

@[simp]
lemma floodLoopF_nil (fuel : Nat) (mf : Minefield) :
    floodLoopF (fuel + 1) mf [] = mf := rfl

lemma floodLoopF_cons (fuel : Nat) (mf : Minefield) (i0 : Nat) (rest : List Nat) :
    floodLoopF (fuel + 1) mf (i0 :: rest) =
      floodLoopF fuel (floodVisit mf rest (mf.neighborIndices i0)).1
        (floodVisit mf rest (mf.neighborIndices i0)).2 := rfl

lemma floodLoopF_dims (fuel : Nat) :
    ∀ (mf : Minefield) (stack : List Nat),
      (floodLoopF fuel mf stack).width = mf.width ∧
      (floodLoopF fuel mf stack).height = mf.height ∧
      (floodLoopF fuel mf stack).mines = mf.mines ∧
      (floodLoopF fuel mf stack).field.length = mf.field.length := by
  induction fuel with
  | zero => intro mf stack; exact ⟨rfl, rfl, rfl, rfl⟩
  | succ fuel ih =>
    intro mf stack
    cases stack with
    | nil => exact ⟨rfl, rfl, rfl, rfl⟩
    | cons i0 rest =>
      rw [floodLoopF_cons]
      obtain ⟨a, b, c, d⟩ := floodVisit_dims (mf.neighborIndices i0) mf rest
      obtain ⟨a', b', c', d'⟩ := ih (floodVisit mf rest (mf.neighborIndices i0)).1
        (floodVisit mf rest (mf.neighborIndices i0)).2
      exact ⟨a'.trans a, b'.trans b, c'.trans c, d'.trans d⟩

lemma floodLoopF_kindAt (fuel : Nat) :
    ∀ (mf : Minefield) (stack : List Nat) (j : Nat),
      (floodLoopF fuel mf stack).kindAt j = mf.kindAt j := by
  induction fuel with
  | zero => intro mf stack j; rfl
  | succ fuel ih =>
    intro mf stack j
    cases stack with
    | nil => rfl
    | cons i0 rest =>
      rw [floodLoopF_cons, ih, floodVisit_kindAt]

/-- State frame of the whole worklist loop: a spot either keeps its state, or
it was a hidden empty spot and is now revealed. -/
lemma floodLoopF_stateAt (fuel : Nat) :
    ∀ (mf : Minefield) (stack : List Nat) (j : Nat),
      (floodLoopF fuel mf stack).stateAt j = mf.stateAt j ∨
      (mf.stateAt j = SpotState.Hidden ∧ (∃ n, mf.kindAt j = SpotKind.Empty n) ∧
        (floodLoopF fuel mf stack).stateAt j = SpotState.Revealed) := by
  induction fuel with
  | zero => intro mf stack j; exact Or.inl rfl
  | succ fuel ih =>
    intro mf stack j
    cases stack with
    | nil => exact Or.inl rfl
    | cons i0 rest =>
      rw [floodLoopF_cons]
      rcases ih (floodVisit mf rest (mf.neighborIndices i0)).1
        (floodVisit mf rest (mf.neighborIndices i0)).2 j with h | ⟨ha, ⟨m, hb⟩, hc⟩
      · rcases floodVisit_stateAt (mf.neighborIndices i0) mf rest j with
          h' | ⟨ha', hb', hc', -⟩
        · exact Or.inl (h.trans h')
        · exact Or.inr ⟨ha', hb', h.trans hc'⟩
      · rcases floodVisit_stateAt (mf.neighborIndices i0) mf rest j with
          h' | ⟨-, -, hc', -⟩
        · rw [floodVisit_kindAt] at hb
          exact Or.inr ⟨h'.symm.trans ha, ⟨m, hb⟩, hc⟩
        · rw [ha] at hc'; cases hc'

lemma floodLoopF_mono_revealed {fuel : Nat} {mf : Minefield}
    {stack : List Nat} {j : Nat} (h : mf.stateAt j = SpotState.Revealed) :
    (floodLoopF fuel mf stack).stateAt j = SpotState.Revealed := by
  rcases floodLoopF_stateAt fuel mf stack j with h' | ⟨ha, -, -⟩
  · rw [h', h]
  · rw [h] at ha; cases ha

lemma floodLoopF_flagged {fuel : Nat} {mf : Minefield}
    {stack : List Nat} {j : Nat} (h : mf.stateAt j = SpotState.Flagged) :
    (floodLoopF fuel mf stack).stateAt j = SpotState.Flagged := by
  rcases floodLoopF_stateAt fuel mf stack j with h' | ⟨ha, -, -⟩
  · rw [h', h]
  · rw [h] at ha; cases ha

lemma floodLoopF_hidden_cases {fuel : Nat} {mf : Minefield}
    {stack : List Nat} {j : Nat} (h : mf.stateAt j = SpotState.Hidden) :
    (floodLoopF fuel mf stack).stateAt j = SpotState.Hidden ∨
    (floodLoopF fuel mf stack).stateAt j = SpotState.Revealed := by
  rcases floodLoopF_stateAt fuel mf stack j with h' | ⟨-, -, hc⟩
  · rw [h', h]; exact Or.inl rfl
  · exact Or.inr hc

/-- Soundness of the flood loop: if every index on the worklist lies in a set
`P` of zero-count spots that is closed under taking grid neighbors of
zero-count members, then no spot outside `P` changes state. -/
lemma floodLoopF_sound (P : Nat → Prop) (fuel : Nat) :
    ∀ (mf : Minefield) (stack : List Nat),
      (∀ i, P i → mf.kindAt i = SpotKind.Empty 0 → ∀ j ∈ mf.neighborIndices i, P j) →
      (∀ i ∈ stack, P i ∧ mf.kindAt i = SpotKind.Empty 0) →
      ∀ j, ¬ P j → (floodLoopF fuel mf stack).stateAt j = mf.stateAt j := by
  induction fuel with
  | zero => intro mf stack _ _ j _; rfl
  | succ fuel ih =>
    intro mf stack hP hstack j hj
    cases stack with
    | nil => rfl
    | cons i0 rest =>
      rw [floodLoopF_cons]
      obtain ⟨hPi0, hki0⟩ := hstack i0 (List.mem_cons_self _ _)
      have hnbrsP : ∀ k ∈ mf.neighborIndices i0, P k := hP i0 hPi0 hki0
      have hnltm : ∀ j' ∈ mf.neighborIndices i0, j' < mf.field.length :=
        fun j' hj' => neighborIndices_lt hj'
      obtain ⟨hwF, hhF, hmF, hlF⟩ := floodVisit_dims (mf.neighborIndices i0) mf rest
      have hnbrF : (floodVisit mf rest (mf.neighborIndices i0)).1.neighborIndices
          = mf.neighborIndices := neighborIndices_congr hwF hlF
      have hFj : (floodVisit mf rest (mf.neighborIndices i0)).1.stateAt j
          = mf.stateAt j := by
        rcases floodVisit_stateAt (mf.neighborIndices i0) mf rest j with
          h | ⟨-, -, -, hmem⟩
        · exact h
        · exact absurd (hnbrsP j hmem) hj
      have hP' : ∀ i, P i →
          (floodVisit mf rest (mf.neighborIndices i0)).1.kindAt i = SpotKind.Empty 0 →
          ∀ k ∈ (floodVisit mf rest (mf.neighborIndices i0)).1.neighborIndices i,
            P k := by
        intro i hPi hki k hk
        rw [floodVisit_kindAt] at hki
        rw [hnbrF] at hk
        exact hP i hPi hki k hk
      have hstack' : ∀ i ∈ (floodVisit mf rest (mf.neighborIndices i0)).2, P i ∧
          (floodVisit mf rest (mf.neighborIndices i0)).1.kindAt i
            = SpotKind.Empty 0 := by
        intro i hiF
        rcases floodVisit_stack_mem (mf.neighborIndices i0) mf rest hnltm i hiF with
          h | ⟨hmem, hk0, -, -⟩
        · obtain ⟨p1, p2⟩ := hstack i (List.mem_cons_of_mem _ h)
          exact ⟨p1, by rw [floodVisit_kindAt]; exact p2⟩
        · exact ⟨hnbrsP i hmem, by rw [floodVisit_kindAt]; exact hk0⟩
      rw [← hFj]
      exact ih _ _ hP' hstack' j hj

/-- Completeness of the flood loop: when it finishes (the fuel dominates the
loop measure), every revealed zero-count spot of `P` has all its empty
neighbors non-hidden. -/
lemma floodLoopF_complete (P : Nat → Prop) (fuel : Nat) :
    ∀ (mf : Minefield) (stack : List Nat),
      hiddenCount mf + stack.length ≤ fuel →
      (∀ i, P i → mf.kindAt i = SpotKind.Empty 0 → ∀ j ∈ mf.neighborIndices i, P j) →
      (∀ i ∈ stack, P i ∧ mf.kindAt i = SpotKind.Empty 0 ∧
        mf.stateAt i = SpotState.Revealed) →
      (∀ i, P i → mf.kindAt i = SpotKind.Empty 0 → mf.stateAt i = SpotState.Revealed →
        i ∉ stack → ∀ j ∈ mf.neighborIndices i, (∃ n, mf.kindAt j = SpotKind.Empty n) →
        mf.stateAt j ≠ SpotState.Hidden) →
      ∀ i, P i → mf.kindAt i = SpotKind.Empty 0 →
        (floodLoopF fuel mf stack).stateAt i = SpotState.Revealed →
        ∀ j ∈ mf.neighborIndices i, (∃ n, mf.kindAt j = SpotKind.Empty n) →
        (floodLoopF fuel mf stack).stateAt j ≠ SpotState.Hidden := by
  induction fuel with
  | zero =>
    intro mf stack hfuel hP hstack hInv i hPi hk0 hrev j hjmem hjemp
    have hstack0 : stack = [] := by
      cases stack with
      | nil => rfl
      | cons a l => simp [List.length_cons] at hfuel
    subst hstack0
    exact hInv i hPi hk0 hrev (by simp) j hjmem hjemp
  | succ fuel ih =>
    intro mf stack hfuel hP hstack hInv i hPi hk0 hrev j hjmem hjemp
    cases stack with
    | nil =>
      rw [floodLoopF_nil] at hrev ⊢
      exact hInv i hPi hk0 hrev (by simp) j hjmem hjemp
    | cons i0 rest =>
      rw [floodLoopF_cons] at hrev ⊢
      obtain ⟨hPi0, hki0, hsi0⟩ := hstack i0 (List.mem_cons_self _ _)
      have hnltm : ∀ j' ∈ mf.neighborIndices i0, j' < mf.field.length :=
        fun j' hj' => neighborIndices_lt hj'
      obtain ⟨hwF, hhF, hmF, hlF⟩ := floodVisit_dims (mf.neighborIndices i0) mf rest
      have hnbrF : (floodVisit mf rest (mf.neighborIndices i0)).1.neighborIndices
          = mf.neighborIndices := neighborIndices_congr hwF hlF
      have hmeas : hiddenCount (floodVisit mf rest (mf.neighborIndices i0)).1
          + (floodVisit mf rest (mf.neighborIndices i0)).2.length ≤ fuel := by
        have hm := floodVisit_measure (mf.neighborIndices i0) mf rest hnltm
        simp only [List.length_cons] at hfuel
        omega
      have hP' : ∀ i', P i' →
          (floodVisit mf rest (mf.neighborIndices i0)).1.kindAt i' = SpotKind.Empty 0 →
          ∀ j' ∈ (floodVisit mf rest (mf.neighborIndices i0)).1.neighborIndices i',
            P j' := by
        intro i' hPi' hki' j' hj'
        rw [floodVisit_kindAt] at hki'
        rw [hnbrF] at hj'
        exact hP i' hPi' hki' j' hj'
      have hstack' : ∀ i' ∈ (floodVisit mf rest (mf.neighborIndices i0)).2,
          P i' ∧ (floodVisit mf rest (mf.neighborIndices i0)).1.kindAt i'
            = SpotKind.Empty 0 ∧
          (floodVisit mf rest (mf.neighborIndices i0)).1.stateAt i'
            = SpotState.Revealed := by
        intro i' hi'
        rcases floodVisit_stack_mem (mf.neighborIndices i0) mf rest hnltm i' hi' with
          h | ⟨hmem, hk, hh, hr⟩
        · obtain ⟨p1, p2, p3⟩ := hstack i' (List.mem_cons_of_mem _ h)
          exact ⟨p1, by rw [floodVisit_kindAt]; exact p2, floodVisit_mono_revealed p3⟩
        · exact ⟨hP i0 hPi0 hki0 i' hmem, by rw [floodVisit_kindAt]; exact hk, hr⟩
      have hInv' : ∀ i', P i' →
          (floodVisit mf rest (mf.neighborIndices i0)).1.kindAt i' = SpotKind.Empty 0 →
          (floodVisit mf rest (mf.neighborIndices i0)).1.stateAt i'
            = SpotState.Revealed →
          i' ∉ (floodVisit mf rest (mf.neighborIndices i0)).2 →
          ∀ j' ∈ (floodVisit mf rest (mf.neighborIndices i0)).1.neighborIndices i',
            (∃ n, (floodVisit mf rest (mf.neighborIndices i0)).1.kindAt j'
              = SpotKind.Empty n) →
          (floodVisit mf rest (mf.neighborIndices i0)).1.stateAt j'
            ≠ SpotState.Hidden := by
        intro i' hPi' hki' hri' hnm j' hj' hje'
        rw [hnbrF] at hj'
        rw [floodVisit_kindAt] at hki'
        have hje'' : ∃ n, mf.kindAt j' = SpotKind.Empty n := by
          obtain ⟨n, hn⟩ := hje'
          rw [floodVisit_kindAt] at hn
          exact ⟨n, hn⟩
        by_cases hii0 : i' = i0
        · subst hii0
          exact floodVisit_visited (mf.neighborIndices i') mf rest hnltm j' hj' hje''
        · rcases hsmf : mf.stateAt i' with _ | _ | _
          · exact absurd (floodVisit_newzero_pushed (mf.neighborIndices i0) mf rest
              i' hsmf hri' hki') hnm
          · have hnin : i' ∉ (i0 :: rest) := by
              intro hcon
              rcases List.mem_cons.mp hcon with h | h
              · exact hii0 h
              · exact hnm (floodVisit_stack_mono _ mf rest i' h)
            exact floodVisit_mono_notHidden
              (hInv i' hPi' hki' hsmf hnin j' hj' hje'')
          · rcases floodVisit_stateAt (mf.neighborIndices i0) mf rest i' with
              h | ⟨ha, -, -, -⟩
            · rw [hsmf] at h
              rw [hri'] at h
              cases h
            · rw [hsmf] at ha; cases ha
      have hres := ih (floodVisit mf rest (mf.neighborIndices i0)).1
        (floodVisit mf rest (mf.neighborIndices i0)).2 hmeas hP' hstack' hInv'
        i hPi (by rw [floodVisit_kindAt]; exact hk0) hrev j
        (by rw [hnbrF]; exact hjmem)
        (by obtain ⟨n, hn⟩ := hjemp
            exact ⟨n, by rw [floodVisit_kindAt]; exact hn⟩)
      exact hres

/-! ### Lemmas about `spot_index`, `spot_coords` and `step` -/

lemma spotIndex_lt {mf : Minefield} {x y i : Nat} (hWF : WF mf)
    (h : mf.spotIndex x y = some i) : i < mf.field.length := by
  obtain ⟨hw, hh, hl⟩ := hWF
  unfold Minefield.spotIndex at h
  split at h
  · cases h
    rename_i hxy
    rw [hl]
    calc y * mf.width + x < y * mf.width + mf.width := by omega
    _ = (y + 1) * mf.width := by ring
    _ ≤ mf.height * mf.width := Nat.mul_le_mul_right _ (by omega)
    _ = mf.width * mf.height := Nat.mul_comm _ _
  · cases h

lemma spotIndex_spotCoords {mf : Minefield} {j : Nat} (hWF : WF mf)
    (hj : j < mf.field.length) :
    mf.spotIndex (mf.spotCoords j).1 (mf.spotCoords j).2 = some j := by
  obtain ⟨hw, hh, hl⟩ := hWF
  have hw0 : 0 < mf.width := by omega
  unfold Minefield.spotIndex Minefield.spotCoords
  rw [if_pos]
  · rw [Nat.div_add_mod']
  · constructor
    · exact Nat.mod_lt _ hw0
    · rw [Nat.div_lt_iff_lt_mul hw0]
      rw [hl, Nat.mul_comm] at hj
      exact hj

lemma step_none {mf : Minefield} {x y : Nat} (h : mf.spotIndex x y = none) :
    mf.step x y = (mf, StepResult.Invalid) := by
  unfold Minefield.step
  rw [h]

lemma step_eq_mine {mf : Minefield} {x y i : Nat}
    (h : mf.spotIndex x y = some i) (hk : mf.kindAt i = SpotKind.Mine) :
    mf.step x y = (mf.setState i SpotState.Revealed, StepResult.Boom) := by
  simp [Minefield.step, h, hk]

lemma step_eq_zero {mf : Minefield} {x y i : Nat}
    (h : mf.spotIndex x y = some i) (hk : mf.kindAt i = SpotKind.Empty 0) :
    mf.step x y = ((mf.setState i SpotState.Revealed).floodNeighborsReveal i,
      StepResult.Phew) := by
  simp [Minefield.step, h, hk]

lemma step_eq_pos {mf : Minefield} {x y i : Nat} {n : Int}
    (h : mf.spotIndex x y = some i) (hk : mf.kindAt i = SpotKind.Empty n)
    (hn : n ≠ 0) :
    mf.step x y = (mf.setState i SpotState.Revealed, StepResult.Phew) := by
  simp [Minefield.step, h, hk, hn]

lemma step_some_result {mf : Minefield} {x y i : Nat}
    (h : mf.spotIndex x y = some i) :
    (mf.step x y).2 =
      (if mf.kindAt i = SpotKind.Mine then StepResult.Boom else StepResult.Phew) := by
  rcases hk : mf.kindAt i with _ | n
  · rw [step_eq_mine h hk, if_pos rfl]
  · rw [if_neg (by intro hcon; cases hcon)]
    by_cases hn : n = 0
    · subst hn
      rw [step_eq_zero h hk]
    · rw [step_eq_pos h hk hn]

lemma step_dims (mf : Minefield) (x y : Nat) :
    (mf.step x y).1.width = mf.width ∧ (mf.step x y).1.height = mf.height ∧
    (mf.step x y).1.mines = mf.mines ∧
    (mf.step x y).1.field.length = mf.field.length := by
  rcases h : mf.spotIndex x y with _ | i
  · rw [step_none h]
    exact ⟨rfl, rfl, rfl, rfl⟩
  · rcases hk : mf.kindAt i with _ | n
    · rw [step_eq_mine h hk]
      exact ⟨rfl, rfl, rfl, by simp⟩
    · by_cases hn : n = 0
      · subst hn
        rw [step_eq_zero h hk]
        unfold Minefield.floodNeighborsReveal
        obtain ⟨a, b, c, d⟩ := floodLoopF_dims
          (hiddenCount (mf.setState i SpotState.Revealed) + 2)
          (mf.setState i SpotState.Revealed) [i]
        exact ⟨by rw [a]; rfl, by rw [b]; rfl, by rw [c]; rfl, by rw [d]; simp⟩
      · rw [step_eq_pos h hk hn]
        exact ⟨rfl, rfl, rfl, by simp⟩

lemma WF_step {mf : Minefield} (hWF : WF mf) (x y : Nat) : WF (mf.step x y).1 := by
  obtain ⟨a, b, c, d⟩ := step_dims mf x y
  exact ⟨by rw [a]; exact hWF.1, by rw [b]; exact hWF.2.1,
    by rw [d, a, b]; exact hWF.2.2⟩

lemma step_kindAt (mf : Minefield) (x y j : Nat) :
    (mf.step x y).1.kindAt j = mf.kindAt j := by
  rcases h : mf.spotIndex x y with _ | i
  · rw [step_none h]
  · rcases hk : mf.kindAt i with _ | n
    · rw [step_eq_mine h hk]
      exact kindAt_setState mf i _ j
    · by_cases hn : n = 0
      · subst hn
        rw [step_eq_zero h hk]
        unfold Minefield.floodNeighborsReveal
        rw [floodLoopF_kindAt]
        exact kindAt_setState mf i _ j
      · rw [step_eq_pos h hk hn]
        exact kindAt_setState mf i _ j

lemma stateAt_setState_cases (mf : Minefield) (i : Nat) (st : SpotState) (j : Nat) :
    (mf.setState i st).stateAt j = mf.stateAt j ∨
      (j = i ∧ (mf.setState i st).stateAt j = st) := by
  by_cases hij : i = j
  · subst hij
    by_cases hl : i < mf.field.length
    · exact Or.inr ⟨rfl, stateAt_setState_self _ hl⟩
    · rw [setState_oob _ (Nat.le_of_not_lt hl)]
      exact Or.inl rfl
  · exact Or.inl (stateAt_setState_ne _ hij)

/-- The state of any spot after a `step` either is unchanged or has become
`Revealed`. -/
lemma step_stateAt_frame (mf : Minefield) (x y j : Nat) :
    (mf.step x y).1.stateAt j = mf.stateAt j ∨
      (mf.step x y).1.stateAt j = SpotState.Revealed := by
  rcases h : mf.spotIndex x y with _ | i
  · rw [step_none h]
    exact Or.inl rfl
  · rcases hk : mf.kindAt i with _ | n
    · rw [step_eq_mine h hk]
      rcases stateAt_setState_cases mf i SpotState.Revealed j with h' | ⟨-, h'⟩
      · exact Or.inl h'
      · exact Or.inr h'
    · by_cases hn : n = 0
      · subst hn
        rw [step_eq_zero h hk]
        unfold Minefield.floodNeighborsReveal
        rcases floodLoopF_stateAt _ (mf.setState i SpotState.Revealed) [i] j with
          h' | ⟨-, -, h'⟩
        · rw [h']
          rcases stateAt_setState_cases mf i SpotState.Revealed j with h2 | ⟨-, h2⟩
          · exact Or.inl h2
          · exact Or.inr h2
        · exact Or.inr h'
      · rw [step_eq_pos h hk hn]
        rcases stateAt_setState_cases mf i SpotState.Revealed j with h' | ⟨-, h'⟩
        · exact Or.inl h'
        · exact Or.inr h'

lemma step_mono_revealed {mf : Minefield} {x y j : Nat}
    (h : mf.stateAt j = SpotState.Revealed) :
    (mf.step x y).1.stateAt j = SpotState.Revealed := by
  rcases step_stateAt_frame mf x y j with h' | h'
  · rw [h', h]
  · exact h'

lemma step_target_revealed {mf : Minefield} {x y i : Nat} (hWF : WF mf)
    (h : mf.spotIndex x y = some i) :
    (mf.step x y).1.stateAt i = SpotState.Revealed := by
  have hi : i < mf.field.length := spotIndex_lt hWF h
  rcases hk : mf.kindAt i with _ | n
  · rw [step_eq_mine h hk]
    exact stateAt_setState_self _ hi
  · by_cases hn : n = 0
    · subst hn
      rw [step_eq_zero h hk]
      unfold Minefield.floodNeighborsReveal
      exact floodLoopF_mono_revealed (stateAt_setState_self _ hi)
    · rw [step_eq_pos h hk hn]
      exact stateAt_setState_self _ hi

/-- When the stepped spot is not a mine, mines keep their state (flood
propagation never reveals a mine). -/
lemma step_mine_frame {mf : Minefield} {x y i : Nat}
    (h : mf.spotIndex x y = some i) (hk : mf.kindAt i ≠ SpotKind.Mine) :
    ∀ j, mf.kindAt j = SpotKind.Mine →
      (mf.step x y).1.stateAt j = mf.stateAt j := by
  intro j hj
  have hij : i ≠ j := by
    intro hcon
    rw [hcon] at hk
    exact hk hj
  rcases hki : mf.kindAt i with _ | n
  · exact absurd hki hk
  · have hbase : (mf.setState i SpotState.Revealed).stateAt j = mf.stateAt j :=
      stateAt_setState_ne _ hij
    by_cases hn : n = 0
    · subst hn
      rw [step_eq_zero h hki]
      unfold Minefield.floodNeighborsReveal
      rcases floodLoopF_stateAt _ (mf.setState i SpotState.Revealed) [i] j with
        h' | ⟨-, ⟨m, hm⟩, -⟩
      · rw [h', hbase]
      · rw [kindAt_setState, hj] at hm
        cases hm
    · rw [step_eq_pos h hki hn]
      exact hbase

/-- When the stepped spot is a mine, only that spot changes state. -/
lemma step_boom_frame {mf : Minefield} {x y i : Nat}
    (h : mf.spotIndex x y = some i) (hk : mf.kindAt i = SpotKind.Mine) :
    ∀ j, j ≠ i → (mf.step x y).1.stateAt j = mf.stateAt j := by
  intro j hj
  rw [step_eq_mine h hk]
  exact stateAt_setState_ne _ (fun hcon => hj hcon.symm)

/-! ### The chord-resolve loop -/

lemma resolveLoop_cons (mf : Minefield) (j : Nat) (rest : List Nat) :
    mf.resolveLoop (j :: rest) =
      if mf.stateAt j = SpotState.Hidden then
        (if (mf.step (mf.spotCoords j).1 (mf.spotCoords j).2).2 = StepResult.Boom
         then ((mf.step (mf.spotCoords j).1 (mf.spotCoords j).2).1, StepResult.Boom)
         else (mf.step (mf.spotCoords j).1 (mf.spotCoords j).2).1.resolveLoop rest)
      else mf.resolveLoop rest := rfl

lemma resolveLoop_spec (ns : List Nat) :
    ∀ (mf : Minefield), WF mf → (∀ j ∈ ns, j < mf.field.length) →
      ((mf.resolveLoop ns).2 = StepResult.Boom ∨
        (mf.resolveLoop ns).2 = StepResult.Phew) ∧
      ((mf.resolveLoop ns).2 = StepResult.Boom ↔
        ∃ j ∈ ns, mf.kindAt j = SpotKind.Mine ∧ mf.stateAt j = SpotState.Hidden) ∧
      ((mf.resolveLoop ns).2 = StepResult.Phew →
        ∀ j ∈ ns, mf.stateAt j = SpotState.Hidden →
          (mf.resolveLoop ns).1.stateAt j = SpotState.Revealed) ∧
      (∀ j, mf.stateAt j = SpotState.Revealed →
        (mf.resolveLoop ns).1.stateAt j = SpotState.Revealed) := by
  induction ns with
  | nil =>
    intro mf hWF hlt
    refine ⟨Or.inr rfl, ?_, ?_, ?_⟩
    · constructor
      · intro h; cases h
      · rintro ⟨j, hj, -⟩; cases hj
    · intro _ j hj; cases hj
    · intro j hj; exact hj
  | cons j0 rest ih =>
    intro mf hWF hlt
    have hj0 : j0 < mf.field.length := hlt j0 (List.mem_cons_self _ _)
    have hlt' : ∀ j ∈ rest, j < mf.field.length :=
      fun j hj => hlt j (List.mem_cons_of_mem _ hj)
    have hidx : mf.spotIndex (mf.spotCoords j0).1 (mf.spotCoords j0).2 = some j0 :=
      spotIndex_spotCoords hWF hj0
    rw [resolveLoop_cons]
    by_cases hh : mf.stateAt j0 = SpotState.Hidden
    · rw [if_pos hh]
      rcases hk : mf.kindAt j0 with _ | n
      · -- stepped on a hidden mine: immediate Boom
        have hres : (mf.step (mf.spotCoords j0).1 (mf.spotCoords j0).2).2
            = StepResult.Boom := by
          rw [step_some_result hidx, if_pos hk]
        rw [if_pos hres]
        refine ⟨Or.inl rfl, ?_, ?_, ?_⟩
        · constructor
          · intro _; exact ⟨j0, List.mem_cons_self _ _, hk, hh⟩
          · intro _; rfl
        · intro hcon; cases hcon
        · intro j hj
          exact step_mono_revealed hj
      · -- stepped on a hidden empty spot: Phew, recurse
        have hres : (mf.step (mf.spotCoords j0).1 (mf.spotCoords j0).2).2
            = StepResult.Phew := by
          rw [step_some_result hidx, if_neg (by rw [hk]; intro hcon; cases hcon)]
        rw [if_neg (by rw [hres]; intro hcon; cases hcon)]
        have hkne : mf.kindAt j0 ≠ SpotKind.Mine := by
          rw [hk]; intro hcon; cases hcon
        obtain ⟨hW, hH, hM, hL⟩ :=
          step_dims mf (mf.spotCoords j0).1 (mf.spotCoords j0).2
        have hkind := step_kindAt mf (mf.spotCoords j0).1 (mf.spotCoords j0).2
        have hmine := step_mine_frame hidx hkne
        obtain ⟨ihA, ihB, ihC, ihD⟩ :=
          ih (mf.step (mf.spotCoords j0).1 (mf.spotCoords j0).2).1
            (WF_step hWF _ _) (fun j hj => by rw [hL]; exact hlt' j hj)
        refine ⟨ihA, ?_, ?_, ?_⟩
        · rw [ihB]
          constructor
          · rintro ⟨j, hj, hjm, hjh⟩
            rw [hkind] at hjm
            rw [hmine j hjm] at hjh
            exact ⟨j, List.mem_cons_of_mem _ hj, hjm, hjh⟩
          · rintro ⟨j, hj, hjm, hjh⟩
            rcases List.mem_cons.mp hj with h | h
            · subst h
              rw [hjm] at hk
              cases hk
            · exact ⟨j, h, by rw [hkind]; exact hjm, by rw [hmine j hjm]; exact hjh⟩
        · intro hphew j hj hjh
          rcases List.mem_cons.mp hj with h | h
          · subst h
            exact ihD j (step_target_revealed hWF hidx)
          · rcases step_stateAt_frame mf (mf.spotCoords j0).1 (mf.spotCoords j0).2 j
              with h' | h'
            · exact ihC hphew j h (h'.trans hjh)
            · exact ihD j h'
        · intro j hj
          exact ihD j (step_mono_revealed hj)
    · rw [if_neg hh]
      obtain ⟨ihA, ihB, ihC, ihD⟩ := ih mf hWF hlt'
      refine ⟨ihA, ?_, ?_, ihD⟩
      · rw [ihB]
        constructor
        · rintro ⟨j, hj, hjm, hjh⟩
          exact ⟨j, List.mem_cons_of_mem _ hj, hjm, hjh⟩
        · rintro ⟨j, hj, hjm, hjh⟩
          rcases List.mem_cons.mp hj with h | h
          · subst h; exact absurd hjh hh
          · exact ⟨j, h, hjm, hjh⟩
      · intro hphew j hj hjh
        rcases List.mem_cons.mp hj with h | h
        · subst h; exact absurd hjh hh
        · exact ihC hphew j h hjh

/-! ### Lemmas about `new`, `flag` and the modelled `toggle_flag` -/

lemma new_width (w h : Nat) : (Minefield.new w h).width = max 3 w := by
  simp only [Minefield.new]
  split <;> omega

lemma new_height (w h : Nat) : (Minefield.new w h).height = max 1 h := by
  simp only [Minefield.new]
  split <;> omega

lemma new_length (w h : Nat) :
    (Minefield.new w h).field.length = max 3 w * max 1 h := by
  simp only [Minefield.new, List.length_replicate]
  congr 1 <;> [skip; skip] <;> first | (split <;> omega)

lemma spotAt_new (w h i : Nat) : (Minefield.new w h).spotAt i = Spot.dflt := by
  simp only [Minefield.new, Minefield.spotAt]
  rw [List.getD_eq_getElem?_getD, List.getElem?_replicate]
  by_cases hi : i < (if w < 3 then 3 else w) * (if h = 0 then 1 else h)
  · rw [if_pos hi]; rfl
  · rw [if_neg hi]; rfl

lemma WF_new (w h : Nat) : WF (Minefield.new w h) := by
  refine ⟨?_, ?_, ?_⟩
  · rw [new_width]; omega
  · rw [new_height]; omega
  · rw [new_length, new_width, new_height]

lemma flag_none {mf : Minefield} {x y : Nat} (h : mf.spotIndex x y = none) :
    mf.flag x y = mf := by
  simp [Minefield.flag, h]

lemma flag_hidden {mf : Minefield} {x y i : Nat} (h : mf.spotIndex x y = some i)
    (hst : mf.stateAt i = SpotState.Hidden) :
    mf.flag x y = mf.setState i SpotState.Flagged := by
  simp [Minefield.flag, h, hst]

lemma flag_flagged {mf : Minefield} {x y i : Nat} (h : mf.spotIndex x y = some i)
    (hst : mf.stateAt i = SpotState.Flagged) :
    mf.flag x y = mf.setState i SpotState.Hidden := by
  simp [Minefield.flag, h, hst]

lemma flag_revealed {mf : Minefield} {x y i : Nat} (h : mf.spotIndex x y = some i)
    (hst : mf.stateAt i = SpotState.Revealed) : mf.flag x y = mf := by
  simp [Minefield.flag, h, hst]

lemma toggleFlag_none {mf : Minefield} {x y : Nat} (h : mf.spotIndex x y = none) :
    mf.toggleFlag x y = (mf, FlagToggleResult.None) := by
  simp [Minefield.toggleFlag, h]

lemma toggleFlag_hidden {mf : Minefield} {x y i : Nat}
    (h : mf.spotIndex x y = some i) (hst : mf.stateAt i = SpotState.Hidden) :
    mf.toggleFlag x y = (mf.setState i SpotState.Flagged, FlagToggleResult.Added) := by
  simp [Minefield.toggleFlag, h, hst]

lemma toggleFlag_flagged {mf : Minefield} {x y i : Nat}
    (h : mf.spotIndex x y = some i) (hst : mf.stateAt i = SpotState.Flagged) :
    mf.toggleFlag x y = (mf.setState i SpotState.Hidden, FlagToggleResult.Removed) := by
  simp [Minefield.toggleFlag, h, hst]

lemma toggleFlag_revealed {mf : Minefield} {x y i : Nat}
    (h : mf.spotIndex x y = some i) (hst : mf.stateAt i = SpotState.Revealed) :
    mf.toggleFlag x y = (mf, FlagToggleResult.None) := by
  simp [Minefield.toggleFlag, h, hst]

/-- The state change performed by the spec-modelled `toggle_flag` is exactly
the one performed by `Minefield::flag` of src/minefield.rs. -/
lemma toggleFlag_fst_eq_flag (mf : Minefield) (x y : Nat) :
    (mf.toggleFlag x y).1 = mf.flag x y := by
  rcases h : mf.spotIndex x y with _ | i
  · rw [toggleFlag_none h, flag_none h]
  · rcases hst : mf.stateAt i with _ | _ | _
    · rw [toggleFlag_hidden h hst, flag_hidden h hst]
    · rw [toggleFlag_revealed h hst, flag_revealed h hst]
    · rw [toggleFlag_flagged h hst, flag_flagged h hst]

lemma setSpot_setSpot (mf : Minefield) (i : Nat) (a b : Spot) :
    (mf.setSpot i a).setSpot i b = mf.setSpot i b := by
  simp [Minefield.setSpot, List.set_set]

/-! ### Claim theorems: construction, step policy, mine counter, flag toggle -/

/-- C7 counterexample: the claim says `new(width, height)` allocates exactly
`width * height` cells with zero inputs clamped to a minimum of 1, but
`new(2, 5)` allocates 15 cells (width is clamped to a minimum of 3, not 1),
not 2 * 5 = 10. -/
theorem new_store_counterexample :
    (Minefield.new 2 5).field.length = 15 ∧ (Minefield.new 2 5).width = 3 ∧
    ¬ (Minefield.new 2 5).field.length = 2 * 5 := by
  decide

/-- C7 (amended): `new(width, height)` clamps the width to a minimum of 3 and
the height to a minimum of 1, allocates exactly clamped-width * clamped-height
cells, all `Empty(0)` and `Hidden`, and never produces a zero-length store. -/
theorem new_amended (w h : Nat) :
    (Minefield.new w h).width = max 3 w ∧
    (Minefield.new w h).height = max 1 h ∧
    (Minefield.new w h).field.length = max 3 w * max 1 h ∧
    0 < (Minefield.new w h).field.length ∧
    (∀ i, (Minefield.new w h).kindAt i = SpotKind.Empty 0 ∧
      (Minefield.new w h).stateAt i = SpotState.Hidden) := by
  refine ⟨new_width w h, new_height w h, new_length w h, ?_, ?_⟩
  · rw [new_length]
    have h3 : 3 ≤ max 3 w := Nat.le_max_left _ _
    have h1 : 1 ≤ max 1 h := Nat.le_max_left _ _
    exact Nat.mul_pos (by omega) (by omega)
  · intro i
    constructor
    · rw [Minefield.kindAt, spotAt_new]; rfl
    · rw [Minefield.stateAt, spotAt_new]; rfl

/-- C4 counterexample: the claim says a step onto a `Flagged` cell is a no-op
returning `Invalid`, but after flagging (0,0) on a fresh 3-by-1 field,
stepping (0,0) returns `Phew` and reveals the flagged cell. -/
theorem step_flagged_counterexample :
    ((Minefield.new 3 1).flag 0 0).stateAt 0 = SpotState.Flagged ∧
    (((Minefield.new 3 1).flag 0 0).step 0 0).2 = StepResult.Phew ∧
    (((Minefield.new 3 1).flag 0 0).step 0 0).1.stateAt 0 = SpotState.Revealed := by
  decide

/-- C4 (amended): `step(x, y)` never checks the target's visibility: for every
in-range coordinate it reveals the target (also when it was `Flagged` or
already `Revealed`) and returns `Boom` exactly when the target is a mine and
`Phew` otherwise; only out-of-range coordinates give `Invalid`, with no
mutation. -/
theorem step_policy (mf : Minefield) (hWF : WF mf) (x y : Nat) :
    (∀ i, mf.spotIndex x y = some i →
      ((mf.step x y).1.stateAt i = SpotState.Revealed ∧
       ((mf.step x y).2 = StepResult.Boom ↔ mf.kindAt i = SpotKind.Mine) ∧
       ((mf.step x y).2 = StepResult.Phew ↔ mf.kindAt i ≠ SpotKind.Mine))) ∧
    (mf.spotIndex x y = none → mf.step x y = (mf, StepResult.Invalid)) := by
  constructor
  · intro i hidx
    refine ⟨step_target_revealed hWF hidx, ?_, ?_⟩
    · rw [step_some_result hidx]
      by_cases hk : mf.kindAt i = SpotKind.Mine
      · rw [if_pos hk]
        exact ⟨fun _ => hk, fun _ => rfl⟩
      · rw [if_neg hk]
        exact ⟨(fun hcon => by cases hcon), fun hcon => absurd hcon hk⟩
    · rw [step_some_result hidx]
      by_cases hk : mf.kindAt i = SpotKind.Mine
      · rw [if_pos hk]
        exact ⟨(fun hcon => by cases hcon), fun hcon => absurd hk hcon⟩
      · rw [if_neg hk]
        exact ⟨fun _ => hk, fun _ => rfl⟩
  · exact step_none

theorem step_policy_witness :
    ((Minefield.new 3 1).step 0 0).1.stateAt 0 = SpotState.Revealed ∧
    (Minefield.new 3 1).step 5 0 = (Minefield.new 3 1, StepResult.Invalid) :=
  ⟨((step_policy (Minefield.new 3 1) ⟨by decide, by decide, by decide⟩ 0 0).1 0
      (by decide)).1,
   (step_policy (Minefield.new 3 1) ⟨by decide, by decide, by decide⟩ 5 0).2
      (by decide)⟩

/-- C5: evaluation at the failing input.  `new(3,1).with_mines(1)` produces a
grid with exactly one `Mine` cell, which is `min(1, 3*1) = 1` as the claim
says, but the `mines()` accessor returns 0, because neither `with_mines` nor
`place_mine` ever assigns the `mines` field that `mines()` reads. -/
theorem mines_accessor_eval :
    numMines ((Minefield.new 3 1).withMines 1 (fun _ => 0)) = 1 ∧
    (1 : Nat) = min 1 ((Minefield.new 3 1).width * (Minefield.new 3 1).height) ∧
    ((Minefield.new 3 1).withMines 1 (fun _ => 0)).minesU16 = 0 := by
  decide

/-- C9: toggling the flag twice on an in-range hidden cell reports `Added`
then `Removed` and restores the original minefield exactly; other cells are
untouched by the first toggle; a toggle on a revealed cell or at out-of-range
coordinates reports `None` and changes nothing. -/
theorem toggleFlag_roundtrip (mf : Minefield) (hWF : WF mf) (x y : Nat) :
    (∀ i, mf.spotIndex x y = some i → mf.stateAt i = SpotState.Hidden →
      ((mf.toggleFlag x y).2 = FlagToggleResult.Added ∧
       (mf.toggleFlag x y).1.stateAt i = SpotState.Flagged ∧
       (∀ j, j ≠ i → (mf.toggleFlag x y).1.spotAt j = mf.spotAt j) ∧
       ((mf.toggleFlag x y).1.toggleFlag x y).2 = FlagToggleResult.Removed ∧
       ((mf.toggleFlag x y).1.toggleFlag x y).1 = mf)) ∧
    (∀ i, mf.spotIndex x y = some i → mf.stateAt i = SpotState.Revealed →
      mf.toggleFlag x y = (mf, FlagToggleResult.None)) ∧
    (mf.spotIndex x y = none → mf.toggleFlag x y = (mf, FlagToggleResult.None)) := by
  refine ⟨?_, ?_, ?_⟩
  · intro i hidx hst
    have hi : i < mf.field.length := spotIndex_lt hWF hidx
    rw [toggleFlag_hidden hidx hst]
    have hidx1 : (mf.setState i SpotState.Flagged).spotIndex x y = some i := hidx
    have hst1 : (mf.setState i SpotState.Flagged).stateAt i = SpotState.Flagged :=
      stateAt_setState_self _ hi
    refine ⟨rfl, hst1, ?_, ?_, ?_⟩
    · intro j hj
      exact spotAt_setSpot_ne _ (fun hcon => hj hcon.symm)
    · rw [toggleFlag_flagged hidx1 hst1]
    · rw [toggleFlag_flagged hidx1 hst1]
      show (mf.setState i SpotState.Flagged).setSpot i
        ⟨(mf.setState i SpotState.Flagged).kindAt i, SpotState.Hidden⟩ = mf
      rw [kindAt_setState]
      show (mf.setSpot i ⟨mf.kindAt i, SpotState.Flagged⟩).setSpot i
        ⟨mf.kindAt i, SpotState.Hidden⟩ = mf
      rw [setSpot_setSpot]
      have hspot : (⟨mf.kindAt i, SpotState.Hidden⟩ : Spot) = mf.spotAt i := by
        rw [← hst]
        rfl
      rw [hspot]
      exact setSpot_spotAt_self mf i
  · intro i hidx hst
    rw [toggleFlag_revealed hidx hst]
  · intro h
    rw [toggleFlag_none h]

theorem toggleFlag_roundtrip_witness :
    ((Minefield.new 3 1).toggleFlag 1 0).2 = FlagToggleResult.Added ∧
    (((Minefield.new 3 1).toggleFlag 1 0).1.toggleFlag 1 0).2
      = FlagToggleResult.Removed ∧
    (((Minefield.new 3 1).toggleFlag 1 0).1.toggleFlag 1 0).1
      = Minefield.new 3 1 := by
  obtain ⟨h1, -, -, h4, h5⟩ :=
    (toggleFlag_roundtrip (Minefield.new 3 1) ⟨by decide, by decide, by decide⟩
      1 0).1 1 (by decide) (by decide)
  exact ⟨h1, h4, h5⟩

/-! ### Claim theorems: flood frame, neighbor generator, completion query -/

/-- C10: flood propagation only changes the visibility of spots that were
both `Hidden` and of `Empty` kind, turning them `Revealed`; a `Flagged` spot
stays `Flagged`, no spot's kind changes, and the field's width, height, store
length and mine counter are unchanged. -/
theorem flood_frame (mf : Minefield) (i : Nat) :
    (mf.floodNeighborsReveal i).width = mf.width ∧
    (mf.floodNeighborsReveal i).height = mf.height ∧
    (mf.floodNeighborsReveal i).mines = mf.mines ∧
    (mf.floodNeighborsReveal i).field.length = mf.field.length ∧
    (∀ j, (mf.floodNeighborsReveal i).kindAt j = mf.kindAt j) ∧
    (∀ j, (mf.floodNeighborsReveal i).stateAt j = mf.stateAt j ∨
      (mf.stateAt j = SpotState.Hidden ∧ (∃ n, mf.kindAt j = SpotKind.Empty n) ∧
        (mf.floodNeighborsReveal i).stateAt j = SpotState.Revealed)) ∧
    (∀ j, mf.stateAt j = SpotState.Flagged →
      (mf.floodNeighborsReveal i).stateAt j = SpotState.Flagged) := by
  unfold Minefield.floodNeighborsReveal
  obtain ⟨a, b, c, d⟩ := floodLoopF_dims (hiddenCount mf + 2) mf [i]
  exact ⟨a, b, c, d, fun j => floodLoopF_kindAt _ _ _ j,
    fun j => floodLoopF_stateAt _ _ _ j, fun j h => floodLoopF_flagged h⟩

/-- C8: for a well-formed minefield (as built by `new`: width at least 3) and
an in-range flat index `i`, `neighbor_indices i` yields exactly the distinct
in-range flat indices whose grid coordinates differ from those of `i` by at
most 1 on each axis and are not `i` itself — no wraparound, no out-of-range
index, so the cell-store accesses they drive all stay in bounds. -/
theorem neighborIndices_spec (mf : Minefield) (hWF : WF mf) (i : Nat)
    (hi : i < mf.field.length) :
    (∀ j, j ∈ mf.neighborIndices i ↔
      (j < mf.field.length ∧ adjacentB mf.width i j = true)) ∧
    (mf.neighborIndices i).Nodup ∧
    (∀ j ∈ mf.neighborIndices i, j < mf.field.length) :=
  ⟨mem_neighborIndices hWF.1, neighborIndices_nodup hWF.1 i,
    fun _ hj => neighborIndices_lt hj⟩

theorem neighborIndices_spec_witness :
    ((Minefield.new 3 1).neighborIndices 0).Nodup ∧
    (1 ∈ (Minefield.new 3 1).neighborIndices 0 ↔
      (1 < (Minefield.new 3 1).field.length ∧
        adjacentB (Minefield.new 3 1).width 0 1 = true)) :=
  ⟨(neighborIndices_spec (Minefield.new 3 1) ⟨by decide, by decide, by decide⟩ 0
      (by decide)).2.1,
   (neighborIndices_spec (Minefield.new 3 1) ⟨by decide, by decide, by decide⟩ 0
      (by decide)).1 1⟩

lemma count_rev_mine_le (l : List Spot)
    (h : ∀ s ∈ l, s.kind = SpotKind.Mine → s.state ≠ SpotState.Revealed) :
    l.countP (fun s => decide (s.state = SpotState.Revealed)) +
      l.countP (fun s => decide (s.kind = SpotKind.Mine)) ≤ l.length := by
  induction l with
  | nil => simp
  | cons a t ih =>
    have ht : ∀ s ∈ t, s.kind = SpotKind.Mine → s.state ≠ SpotState.Revealed :=
      fun s hs => h s (List.mem_cons_of_mem _ hs)
    have ha := h a (List.mem_cons_self _ _)
    have hrec := ih ht
    simp only [List.countP_cons, List.length_cons]
    by_cases h1 : a.kind = SpotKind.Mine
    · have h2 : ¬ a.state = SpotState.Revealed := ha h1
      simp [h1, h2]
      omega
    · by_cases h2 : a.state = SpotState.Revealed
      · simp [h1, h2]
        omega
      · simp [h1, h2]
        omega

lemma isCleared_count (l : List Spot)
    (h : ∀ s ∈ l, s.kind = SpotKind.Mine → s.state ≠ SpotState.Revealed) :
    ((∀ s ∈ l, s.kind = SpotKind.Mine ∨ s.state = SpotState.Revealed) ↔
      l.countP (fun s => decide (s.state = SpotState.Revealed)) =
        l.length - l.countP (fun s => decide (s.kind = SpotKind.Mine))) := by
  induction l with
  | nil => simp
  | cons a t ih =>
    have ht : ∀ s ∈ t, s.kind = SpotKind.Mine → s.state ≠ SpotState.Revealed :=
      fun s hs => h s (List.mem_cons_of_mem _ hs)
    have ha := h a (List.mem_cons_self _ _)
    have hle := count_rev_mine_le t ht
    have hlen2 : t.countP (fun s => decide (s.kind = SpotKind.Mine)) ≤ t.length :=
      List.countP_le_length _
    simp only [List.forall_mem_cons, List.countP_cons, List.length_cons]
    rw [ih ht]
    by_cases h1 : a.kind = SpotKind.Mine
    · have h2 : ¬ a.state = SpotState.Revealed := ha h1
      simp [h1, h2] <;> omega
    · by_cases h2 : a.state = SpotState.Revealed
      · simp [h1, h2] <;> omega
      · simp [h1, h2] <;> omega

/-- C6 counterexample: the claim equates "every non-mine cell is Revealed"
with "revealed count = width*height - mine count" after every mutating call,
but in the reachable state `exC6` (mine revealed by a Boom, one empty cell
still flagged) the revealed count equals the cell count minus the mine count
while a non-mine cell is not revealed. -/
theorem isCleared_counterexample :
    exC6.isCleared = false ∧
    revealedCount exC6 = exC6.field.length - numMines exC6 ∧
    exC6.field.length = exC6.width * exC6.height ∧
    numMines exC6 = 1 := by
  decide

/-- C6 (amended): the spec-modelled `is_cleared()` is a pure function of the
field returning true iff every non-mine cell is `Revealed`; in any state in
which no mine is revealed (in particular in every state reached without a
`Boom`), this is equivalent to the revealed-cell count being
`width*height - (number of Mine cells)`. -/
theorem isCleared_spec (mf : Minefield) (hWF : WF mf)
    (hmr : ∀ s ∈ mf.field, s.kind = SpotKind.Mine → s.state ≠ SpotState.Revealed) :
    (mf.isCleared = true ↔
      revealedCount mf = mf.width * mf.height - numMines mf) := by
  have hiff := isCleared_count mf.field hmr
  unfold Minefield.isCleared revealedCount numMines
  rw [List.all_eq_true, ← hWF.2.2]
  simp only [decide_eq_true_eq]
  exact hiff

theorem isCleared_spec_witness :
    (Minefield.new 3 1).isCleared = true ↔
      revealedCount (Minefield.new 3 1) =
        (Minefield.new 3 1).width * (Minefield.new 3 1).height -
          numMines (Minefield.new 3 1) :=
  isCleared_spec (Minefield.new 3 1) ⟨by decide, by decide, by decide⟩ (by decide)

/-! ### Claim theorem: chord resolve -/

lemma tryResolveStep_run {mf : Minefield} {x y i : Nat} {n : Int}
    (hidx : mf.spotIndex x y = some i) (hst : mf.stateAt i = SpotState.Revealed)
    (hkd : mf.kindAt i = SpotKind.Empty n) (hn : 0 < n)
    (hfc : n = mf.flagCountAt i) :
    mf.tryResolveStep x y = mf.resolveLoop (mf.neighborIndices i) := by
  simp [Minefield.tryResolveStep, hidx, hst, hkd, hn, ← hfc]

/-- C3: when the target is a revealed `Empty(n)` cell with `n > 0` and the
flagged-neighbor count equals `n`, `try_resolve_step` returns `Boom` exactly
when some hidden neighbor is a mine, otherwise `Phew`, and in the `Phew` case
every neighbor that was hidden ends up revealed; in every other case
(including out-of-range coordinates) it returns `Invalid` with no mutation. -/
theorem tryResolve_spec (mf : Minefield) (hWF : WF mf) (x y : Nat) :
    (∀ i, ∀ n : Int, mf.spotIndex x y = some i →
      mf.stateAt i = SpotState.Revealed →
      mf.kindAt i = SpotKind.Empty n → 0 < n → n = mf.flagCountAt i →
      (((mf.tryResolveStep x y).2 = StepResult.Boom ∨
        (mf.tryResolveStep x y).2 = StepResult.Phew) ∧
       ((mf.tryResolveStep x y).2 = StepResult.Boom ↔
         ∃ j ∈ mf.neighborIndices i, mf.kindAt j = SpotKind.Mine ∧
           mf.stateAt j = SpotState.Hidden) ∧
       ((mf.tryResolveStep x y).2 = StepResult.Phew →
         ∀ j ∈ mf.neighborIndices i, mf.stateAt j = SpotState.Hidden →
           (mf.tryResolveStep x y).1.stateAt j = SpotState.Revealed))) ∧
    ((∀ i, mf.spotIndex x y = some i →
       ¬(mf.stateAt i = SpotState.Revealed ∧ ∃ n : Int,
          mf.kindAt i = SpotKind.Empty n ∧ 0 < n ∧ n = mf.flagCountAt i)) →
      mf.tryResolveStep x y = (mf, StepResult.Invalid)) := by
  constructor
  · intro i n hidx hst hkd hn hfc
    rw [tryResolveStep_run hidx hst hkd hn hfc]
    obtain ⟨hA, hB, hC, hD⟩ := resolveLoop_spec (mf.neighborIndices i) mf hWF
      (fun j hj => neighborIndices_lt hj)
    exact ⟨hA, hB, hC⟩
  · intro hcond
    rcases hidx : mf.spotIndex x y with _ | i
    · simp [Minefield.tryResolveStep, hidx]
    · rcases hst : mf.stateAt i with _ | _ | _
      · simp [Minefield.tryResolveStep, hidx, hst]
      · rcases hkd : mf.kindAt i with _ | n
        · simp [Minefield.tryResolveStep, hidx, hst, hkd]
        · by_cases hn : 0 < n
          · by_cases hfc : n = mf.flagCountAt i
            · exact absurd ⟨hst, n, hkd, hn, hfc⟩ (hcond i hidx)
            · simp [Minefield.tryResolveStep, hidx, hst, hkd, hn, hfc]
          · simp [Minefield.tryResolveStep, hidx, hst, hkd, hn]
      · simp [Minefield.tryResolveStep, hidx, hst]

theorem tryResolve_spec_witness :
    (exC3.tryResolveStep 1 0).2 = StepResult.Phew ∧
    (exC3.tryResolveStep 1 0).1.stateAt 0 = SpotState.Revealed := by
  obtain ⟨hA, hB, hC⟩ := (tryResolve_spec exC3 ⟨by decide, by decide, by decide⟩
    1 0).1 1 1 (by decide) (by decide) (by decide) (by decide) (by decide)
  have hnb : ¬ ∃ j ∈ exC3.neighborIndices 1, exC3.kindAt j = SpotKind.Mine ∧
      exC3.stateAt j = SpotState.Hidden := by decide
  have hphew : (exC3.tryResolveStep 1 0).2 = StepResult.Phew := by
    rcases hA with h | h
    · exact absurd (hB.mp h) hnb
    · exact h
  exact ⟨hphew, hC hphew 0 (by decide) (by decide)⟩

/-! ### Mine placement and the neighbor-count invariant -/

lemma specNeighbors_congr {mf mf' : Minefield} (hw : mf'.width = mf.width)
    (hl : mf'.field.length = mf.field.length) :
    specNeighbors mf' = specNeighbors mf := by
  funext i
  simp [specNeighbors, hw, hl]

lemma mem_specNeighbors {mf : Minefield} {i j : Nat} :
    j ∈ specNeighbors mf i ↔
      (j < mf.field.length ∧ adjacentB mf.width i j = true) := by
  simp [specNeighbors, List.mem_filter, List.mem_range, and_comm]

lemma specNeighbors_nodup (mf : Minefield) (i : Nat) :
    (specNeighbors mf i).Nodup :=
  List.Nodup.filter _ (List.nodup_range _)

lemma not_mem_neighborIndices_self {mf : Minefield} (hw : 3 ≤ mf.width)
    (i : Nat) : i ∉ mf.neighborIndices i := by
  intro h
  have hmem := (mem_neighborIndices hw i).mp h
  rw [adjacentB_iff] at hmem
  exact hmem.2.1 rfl

lemma mineNbrCount_congr {mf mf' : Minefield} (hw : mf'.width = mf.width)
    (hl : mf'.field.length = mf.field.length)
    (hk : ∀ j, mf'.kindAt j = mf.kindAt j) (i : Nat) :
    mineNbrCount mf' i = mineNbrCount mf i := by
  unfold mineNbrCount
  rw [specNeighbors_congr hw hl]
  exact List.countP_congr (fun j _ => by rw [hk j])

lemma countsOk_congr {mf mf' : Minefield} (hw : mf'.width = mf.width)
    (hl : mf'.field.length = mf.field.length)
    (hk : ∀ j, mf'.kindAt j = mf.kindAt j) (h : countsOk mf) : countsOk mf' := by
  intro i hi n hkind
  rw [mineNbrCount_congr hw hl hk i]
  exact h i (by rw [← hl]; exact hi) n (by rw [← hk i]; exact hkind)

lemma countsOk_new (w h : Nat) : countsOk (Minefield.new w h) := by
  intro i hi n hkind
  rw [Minefield.kindAt, spotAt_new] at hkind
  have hn : n = 0 := by
    have : SpotKind.Empty 0 = SpotKind.Empty n := hkind
    cases this
    rfl
  have h0 : mineNbrCount (Minefield.new w h) i = 0 := by
    unfold mineNbrCount
    rw [List.countP_eq_zero]
    intro j hj
    simp [Minefield.kindAt, spotAt_new, Spot.dflt]
  rw [h0, hn]
  rfl

lemma incSpot_kind_mine {s : Spot} (h : s.kind = SpotKind.Mine) : incSpot s = s := by
  unfold incSpot
  rw [h]

lemma incSpot_kind_empty {s : Spot} {n : Int} (h : s.kind = SpotKind.Empty n) :
    incSpot s = ⟨SpotKind.Empty (n + 1), s.state⟩ := by
  unfold incSpot
  rw [h]

lemma incSpot_state (s : Spot) : (incSpot s).state = s.state := by
  rcases hk : s.kind with _ | n
  · rw [incSpot_kind_mine hk]
  · rw [incSpot_kind_empty hk]

lemma incSpot_mine_iff (s : Spot) :
    (incSpot s).kind = SpotKind.Mine ↔ s.kind = SpotKind.Mine := by
  rcases hk : s.kind with _ | n
  · rw [incSpot_kind_mine hk, hk]
  · rw [incSpot_kind_empty hk]
    simp

lemma incNeighbors_dims (ns : List Nat) :
    ∀ (mf : Minefield),
      (incNeighbors mf ns).width = mf.width ∧
      (incNeighbors mf ns).height = mf.height ∧
      (incNeighbors mf ns).mines = mf.mines ∧
      (incNeighbors mf ns).field.length = mf.field.length := by
  induction ns with
  | nil => intro mf; exact ⟨rfl, rfl, rfl, rfl⟩
  | cons k ns ih =>
    intro mf
    unfold incNeighbors
    rcases hkd : mf.kindAt k with _ | n <;> simp only []
    · exact ih mf
    · obtain ⟨a, b, c, d⟩ := ih (mf.setSpot k ⟨SpotKind.Empty (n + 1), mf.stateAt k⟩)
      exact ⟨by rw [a]; rfl, by rw [b]; rfl, by rw [c]; rfl, by rw [d]; simp⟩

lemma incNeighbors_spec (ns : List Nat) :
    ∀ (mf : Minefield), ns.Nodup → (∀ j ∈ ns, j < mf.field.length) →
      (∀ j ∈ ns, (incNeighbors mf ns).spotAt j = incSpot (mf.spotAt j)) ∧
      (∀ j, j ∉ ns → (incNeighbors mf ns).spotAt j = mf.spotAt j) := by
  induction ns with
  | nil =>
    intro mf _ _
    exact ⟨fun j hj => absurd hj (List.not_mem_nil _), fun j _ => rfl⟩
  | cons k ns ih =>
    intro mf hnd hlt
    have hk : k < mf.field.length := hlt k (List.mem_cons_self _ _)
    have hkn : k ∉ ns := (List.nodup_cons.mp hnd).1
    have hnd' : ns.Nodup := (List.nodup_cons.mp hnd).2
    have hlt' : ∀ j ∈ ns, j < mf.field.length :=
      fun j hj => hlt j (List.mem_cons_of_mem _ hj)
    unfold incNeighbors
    rcases hkd : mf.kindAt k with _ | n <;> simp only []
    · obtain ⟨e, f⟩ := ih mf hnd' hlt'
      refine ⟨?_, ?_⟩
      · intro j hj
        rcases List.mem_cons.mp hj with hjk | hjns
        · subst hjk
          rw [f j hkn, incSpot_kind_mine hkd]
        · exact e j hjns
      · intro j hj
        exact f j (fun hcon => hj (List.mem_cons_of_mem _ hcon))
    · obtain ⟨e, f⟩ := ih (mf.setSpot k ⟨SpotKind.Empty (n + 1), mf.stateAt k⟩)
        hnd' (fun j hj => by rw [setSpot_length]; exact hlt' j hj)
      refine ⟨?_, ?_⟩
      · intro j hj
        rcases List.mem_cons.mp hj with hjk | hjns
        · subst hjk
          rw [f j hkn, spotAt_setSpot_self _ hk, incSpot_kind_empty hkd]
          rfl
        · rw [e j hjns,
            spotAt_setSpot_ne _ (fun hcon => hkn (by rw [hcon]; exact hjns))]
      · intro j hj
        rw [f j (fun hcon => hj (List.mem_cons_of_mem _ hcon)),
          spotAt_setSpot_ne _
            (fun hcon => hj (by rw [← hcon]; exact List.mem_cons_self _ _))]

lemma placeMine_oob {mf : Minefield} {idx : Nat}
    (h : ¬ idx < mf.field.length) : mf.placeMine idx = mf := by
  simp [Minefield.placeMine, h]

lemma placeMine_mine {mf : Minefield} {idx : Nat} (h : idx < mf.field.length)
    (hk : mf.kindAt idx = SpotKind.Mine) : mf.placeMine idx = mf := by
  simp [Minefield.placeMine, h, hk]

lemma placeMine_empty {mf : Minefield} {idx : Nat} {m : Int}
    (h : idx < mf.field.length) (hk : mf.kindAt idx = SpotKind.Empty m) :
    mf.placeMine idx =
      incNeighbors (mf.setSpot idx ⟨SpotKind.Mine, mf.stateAt idx⟩)
        ((mf.setSpot idx ⟨SpotKind.Mine, mf.stateAt idx⟩).neighborIndices idx) := by
  simp [Minefield.placeMine, h, hk]

lemma placeMine_dims (mf : Minefield) (idx : Nat) :
    (mf.placeMine idx).width = mf.width ∧
    (mf.placeMine idx).height = mf.height ∧
    (mf.placeMine idx).field.length = mf.field.length := by
  by_cases h : idx < mf.field.length
  · rcases hkd : mf.kindAt idx with _ | m
    · rw [placeMine_mine h hkd]
      exact ⟨rfl, rfl, rfl⟩
    · rw [placeMine_empty h hkd]
      obtain ⟨a, b, c, d⟩ := incNeighbors_dims
        ((mf.setSpot idx ⟨SpotKind.Mine, mf.stateAt idx⟩).neighborIndices idx)
        (mf.setSpot idx ⟨SpotKind.Mine, mf.stateAt idx⟩)
      exact ⟨by rw [a]; rfl, by rw [b]; rfl, by rw [d]; simp⟩
  · rw [placeMine_oob h]
    exact ⟨rfl, rfl, rfl⟩

lemma WF_placeMine {mf : Minefield} (hWF : WF mf) (idx : Nat) :
    WF (mf.placeMine idx) := by
  obtain ⟨a, b, c⟩ := placeMine_dims mf idx
  exact ⟨by rw [a]; exact hWF.1, by rw [b]; exact hWF.2.1,
    by rw [c, a, b]; exact hWF.2.2⟩

/-- Full characterization of `place_mine` on an in-range empty target: the
target becomes a mine with its state kept, every neighboring spot gets
`incSpot` applied (count incremented if empty), everything else — including
every spot's state — is unchanged. -/
lemma placeMine_spec {mf : Minefield} (hw : 3 ≤ mf.width) {idx : Nat}
    (hidx : idx < mf.field.length) {m : Int}
    (hkd : mf.kindAt idx = SpotKind.Empty m) :
    (mf.placeMine idx).kindAt idx = SpotKind.Mine ∧
    (∀ j, j ≠ idx → (mf.placeMine idx).spotAt j =
      (if j ∈ mf.neighborIndices idx then incSpot (mf.spotAt j) else mf.spotAt j)) ∧
    (∀ j, (mf.placeMine idx).stateAt j = mf.stateAt j) := by
  rw [placeMine_empty hidx hkd]
  have hl1 : (mf.setSpot idx ⟨SpotKind.Mine, mf.stateAt idx⟩).field.length
      = mf.field.length := by simp
  have hnbr1 : (mf.setSpot idx ⟨SpotKind.Mine, mf.stateAt idx⟩).neighborIndices
      = mf.neighborIndices := neighborIndices_congr rfl hl1
  have hnodup : ((mf.setSpot idx ⟨SpotKind.Mine, mf.stateAt idx⟩).neighborIndices
      idx).Nodup :=
    @neighborIndices_nodup (mf.setSpot idx ⟨SpotKind.Mine, mf.stateAt idx⟩) hw idx
  have hbound : ∀ j ∈ (mf.setSpot idx ⟨SpotKind.Mine, mf.stateAt idx⟩).neighborIndices
      idx, j < (mf.setSpot idx ⟨SpotKind.Mine, mf.stateAt idx⟩).field.length :=
    fun j hj => neighborIndices_lt hj
  obtain ⟨e, f⟩ := incNeighbors_spec _ _ hnodup hbound
  have hself : idx ∉ (mf.setSpot idx ⟨SpotKind.Mine, mf.stateAt idx⟩).neighborIndices
      idx := by
    rw [hnbr1]
    exact not_mem_neighborIndices_self hw idx
  refine ⟨?_, ?_, ?_⟩
  · rw [Minefield.kindAt, f idx hself, spotAt_setSpot_self _ hidx]
  · intro j hj
    by_cases hmem : j ∈ mf.neighborIndices idx
    · rw [if_pos hmem]
      rw [e j (by rw [hnbr1]; exact hmem), spotAt_setSpot_ne _ (fun hcon => hj hcon.symm)]
    · rw [if_neg hmem]
      rw [f j (by rw [hnbr1]; exact hmem), spotAt_setSpot_ne _ (fun hcon => hj hcon.symm)]
  · intro j
    by_cases hji : j = idx
    · subst hji
      rw [Minefield.stateAt, f j hself, spotAt_setSpot_self _ hidx]
    · by_cases hmem : j ∈ mf.neighborIndices idx
      · rw [Minefield.stateAt, e j (by rw [hnbr1]; exact hmem), incSpot_state,
          spotAt_setSpot_ne _ (fun hcon => hji hcon.symm)]
        rfl
      · rw [Minefield.stateAt, f j (by rw [hnbr1]; exact hmem),
          spotAt_setSpot_ne _ (fun hcon => hji hcon.symm)]
        rfl

/-- Counting under a predicate that differs from `p` exactly by turning one
non-`p` member `a` on: the count grows by one. -/
lemma countP_flip_one {l : List Nat} (hnd : l.Nodup) {a : Nat} (ha : a ∈ l)
    {p q : Nat → Bool} (hpa : p a = false) (hqa : q a = true)
    (hother : ∀ j ∈ l, j ≠ a → q j = p j) :
    l.countP q = l.countP p + 1 := by
  induction l with
  | nil => cases ha
  | cons x t ih =>
    have hndt : t.Nodup := (List.nodup_cons.mp hnd).2
    rw [List.countP_cons, List.countP_cons]
    rcases List.mem_cons.mp ha with hxa | hat
    · have hxt : x ∉ t := (List.nodup_cons.mp hnd).1
      have heq : t.countP q = t.countP p :=
        List.countP_congr (fun j hj => by
          rw [hother j (List.mem_cons_of_mem _ hj)
            (fun hcon => hxt (by rw [← hxa, ← hcon]; exact hj))])
      rw [heq, ← hxa, hqa, hpa]
      simp
    · have hxa : x ≠ a := by
        intro hcon
        exact (List.nodup_cons.mp hnd).1 (hcon ▸ hat)
      have hqx : q x = p x := hother x (List.mem_cons_self _ _) hxa
      rw [hqx, ih hndt hat (fun j hj hja => hother j (List.mem_cons_of_mem _ hj) hja)]
      omega

lemma countsOk_placeMine {mf : Minefield} (hWF : WF mf) (h : countsOk mf)
    (idx : Nat) : countsOk (mf.placeMine idx) := by
  by_cases hidx : idx < mf.field.length
  · rcases hkd : mf.kindAt idx with _ | m
    · rw [placeMine_mine hidx hkd]
      exact h
    · obtain ⟨hkm, hspot, hstate⟩ := placeMine_spec hWF.1 hidx hkd
      obtain ⟨dw, dh, dl⟩ := placeMine_dims mf idx
      have hsn : specNeighbors (mf.placeMine idx) = specNeighbors mf :=
        specNeighbors_congr dw dl
      -- mine-ness of any spot other than idx is unchanged
      have hmine_iff : ∀ j, j ≠ idx →
          ((mf.placeMine idx).kindAt j = SpotKind.Mine ↔
            mf.kindAt j = SpotKind.Mine) := by
        intro j hj
        rw [Minefield.kindAt, hspot j hj]
        by_cases hmem : j ∈ mf.neighborIndices idx
        · rw [if_pos hmem]
          exact incSpot_mine_iff _
        · rw [if_neg hmem]
          exact Iff.rfl
      intro i hi n hkind
      have hine : i ≠ idx := by
        intro hcon
        rw [hcon, hkm] at hkind
        cases hkind
      rw [dl] at hi
      by_cases hmem : i ∈ mf.neighborIndices idx
      · -- a neighbor of the new mine: count goes up by one
        have hidxsn : idx ∈ specNeighbors mf i := by
          obtain ⟨-, hadj⟩ := (mem_neighborIndices hWF.1 i).mp hmem
          exact mem_specNeighbors.mpr ⟨hidx, (adjacentB_symm _ _ _).mp hadj⟩
        have hkindi := hspot i hine
        rw [if_pos hmem] at hkindi
        rcases hk0 : mf.kindAt i with _ | n0
        · exfalso
          have : (mf.placeMine idx).kindAt i = SpotKind.Mine :=
            (hmine_iff i hine).mpr hk0
          rw [this] at hkind
          cases hkind
        · have hk0' : (mf.spotAt i).kind = SpotKind.Empty n0 := hk0
          have hkindi' : (mf.placeMine idx).kindAt i = SpotKind.Empty (n0 + 1) := by
            rw [Minefield.kindAt, hkindi, incSpot_kind_empty hk0']
          have hn : n = n0 + 1 := by
            rw [hkindi'] at hkind
            cases hkind
            rfl
          have hold := h i hi n0 hk0
          have hcount : mineNbrCount (mf.placeMine idx) i
              = mineNbrCount mf i + 1 := by
            unfold mineNbrCount
            rw [hsn]
            apply countP_flip_one (specNeighbors_nodup mf i) hidxsn
            · rw [decide_eq_false_iff_not]
              rw [hkd]
              intro hcon
              cases hcon
            · rw [decide_eq_true_eq]
              exact hkm
            · intro j hj hja
              exact decide_eq_decide.mpr (hmine_iff j hja)
          rw [hcount, hn, hold]
          push_cast
          ring
      · -- not a neighbor: count unchanged
        have hidxsn : idx ∉ specNeighbors mf i := by
          intro hcon
          obtain ⟨-, hadj⟩ := mem_specNeighbors.mp hcon
          exact hmem ((mem_neighborIndices hWF.1 i).mpr
            ⟨hi, (adjacentB_symm _ _ _).mp hadj⟩)
        have hkindi := hspot i hine
        rw [if_neg hmem] at hkindi
        have hkk : (mf.placeMine idx).kindAt i = mf.kindAt i := by
          rw [Minefield.kindAt, hkindi]
          rfl
        have hk' : mf.kindAt i = SpotKind.Empty n := by
          rw [← hkk]
          exact hkind
        have hold := h i hi n hk'
        have hcount : mineNbrCount (mf.placeMine idx) i = mineNbrCount mf i := by
          unfold mineNbrCount
          rw [hsn]
          apply List.countP_congr
          intro j hj
          have hja : j ≠ idx := by
            intro hcon
            exact hidxsn (hcon ▸ hj)
          rw [decide_eq_true_eq, decide_eq_true_eq]
          exact hmine_iff j hja
        rw [hcount]
        exact hold
  · rw [placeMine_oob hidx]
    exact h

lemma countsOk_placeMinesLoop (k : Nat) :
    ∀ (pool : List Nat) (rng : Nat → Nat) (mf : Minefield), WF mf → countsOk mf →
      WF (Minefield.placeMinesLoop mf pool k rng) ∧
      countsOk (Minefield.placeMinesLoop mf pool k rng) := by
  induction k with
  | zero => intro pool rng mf hWF h; exact ⟨hWF, h⟩
  | succ k ih =>
    intro pool rng mf hWF h
    exact ih _ _ _ (WF_placeMine hWF _) (countsOk_placeMine hWF h _)

lemma countsOk_withMines {mf : Minefield} (hWF : WF mf) (h : countsOk mf)
    (m : Nat) (rng : Nat → Nat) :
    WF (mf.withMines m rng) ∧ countsOk (mf.withMines m rng) :=
  countsOk_placeMinesLoop _ _ _ mf hWF h

/-! ### All public operations preserve kinds and dimensions -/

lemma flag_kindAt (mf : Minefield) (x y j : Nat) :
    (mf.flag x y).kindAt j = mf.kindAt j := by
  rcases h : mf.spotIndex x y with _ | i
  · rw [flag_none h]
  · rcases hst : mf.stateAt i with _ | _ | _
    · rw [flag_hidden h hst]; exact kindAt_setState _ _ _ _
    · rw [flag_revealed h hst]
    · rw [flag_flagged h hst]; exact kindAt_setState _ _ _ _

lemma flag_dims (mf : Minefield) (x y : Nat) :
    (mf.flag x y).width = mf.width ∧ (mf.flag x y).field.length = mf.field.length := by
  rcases h : mf.spotIndex x y with _ | i
  · rw [flag_none h]; exact ⟨rfl, rfl⟩
  · rcases hst : mf.stateAt i with _ | _ | _
    · rw [flag_hidden h hst]; exact ⟨rfl, by simp⟩
    · rw [flag_revealed h hst]; exact ⟨rfl, rfl⟩
    · rw [flag_flagged h hst]; exact ⟨rfl, by simp⟩

lemma resolveLoop_kindAt (ns : List Nat) :
    ∀ (mf : Minefield) (j : Nat),
      (mf.resolveLoop ns).1.kindAt j = mf.kindAt j := by
  induction ns with
  | nil => intro mf j; rfl
  | cons k ns ih =>
    intro mf j
    rw [resolveLoop_cons]
    by_cases hh : mf.stateAt k = SpotState.Hidden
    · rw [if_pos hh]
      by_cases hb : (mf.step (mf.spotCoords k).1 (mf.spotCoords k).2).2
          = StepResult.Boom
      · rw [if_pos hb]
        exact step_kindAt _ _ _ _
      · rw [if_neg hb, ih, step_kindAt]
    · rw [if_neg hh]
      exact ih mf j

lemma resolveLoop_dims (ns : List Nat) :
    ∀ (mf : Minefield),
      (mf.resolveLoop ns).1.width = mf.width ∧
      (mf.resolveLoop ns).1.field.length = mf.field.length := by
  induction ns with
  | nil => intro mf; exact ⟨rfl, rfl⟩
  | cons k ns ih =>
    intro mf
    rw [resolveLoop_cons]
    obtain ⟨sw, -, -, sl⟩ := step_dims mf (mf.spotCoords k).1 (mf.spotCoords k).2
    by_cases hh : mf.stateAt k = SpotState.Hidden
    · rw [if_pos hh]
      by_cases hb : (mf.step (mf.spotCoords k).1 (mf.spotCoords k).2).2
          = StepResult.Boom
      · rw [if_pos hb]
        exact ⟨sw, sl⟩
      · rw [if_neg hb]
        obtain ⟨a, b⟩ := ih (mf.step (mf.spotCoords k).1 (mf.spotCoords k).2).1
        exact ⟨a.trans sw, b.trans sl⟩
    · rw [if_neg hh]
      exact ih mf

lemma tryResolveStep_fst_cases (mf : Minefield) (x y : Nat) :
    (mf.tryResolveStep x y).1 = mf ∨
    ∃ i, (mf.tryResolveStep x y).1 = (mf.resolveLoop (mf.neighborIndices i)).1 := by
  rcases hidx : mf.spotIndex x y with _ | i
  · left; simp [Minefield.tryResolveStep, hidx]
  · rcases hst : mf.stateAt i with _ | _ | _
    · left; simp [Minefield.tryResolveStep, hidx, hst]
    · rcases hkd : mf.kindAt i with _ | n
      · left; simp [Minefield.tryResolveStep, hidx, hst, hkd]
      · by_cases hn : 0 < n
        · by_cases hfc : n = mf.flagCountAt i
          · right
            exact ⟨i, by rw [tryResolveStep_run hidx hst hkd hn hfc]⟩
          · left; simp [Minefield.tryResolveStep, hidx, hst, hkd, hn, hfc]
        · left; simp [Minefield.tryResolveStep, hidx, hst, hkd, hn]
    · left; simp [Minefield.tryResolveStep, hidx, hst]

lemma applyOp_kinds_dims (mf : Minefield) (op : Op) :
    (applyOp mf op).width = mf.width ∧
    (applyOp mf op).field.length = mf.field.length ∧
    (∀ j, (applyOp mf op).kindAt j = mf.kindAt j) := by
  rcases op with ⟨x, y⟩ | ⟨x, y⟩ | ⟨x, y⟩
  · obtain ⟨a, -, -, d⟩ := step_dims mf x y
    exact ⟨a, d, fun j => step_kindAt mf x y j⟩
  · rcases tryResolveStep_fst_cases mf x y with hc | ⟨i, hc⟩
    · rw [applyOp, hc]
      exact ⟨rfl, rfl, fun j => rfl⟩
    · rw [applyOp, hc]
      obtain ⟨a, b⟩ := resolveLoop_dims (mf.neighborIndices i) mf
      exact ⟨a, b, fun j => resolveLoop_kindAt _ _ _⟩
  · obtain ⟨a, b⟩ := flag_dims mf x y
    exact ⟨a, b, fun j => flag_kindAt mf x y j⟩

lemma countsOk_applyOps (ops : List Op) :
    ∀ (mf : Minefield), countsOk mf → countsOk (applyOps mf ops) := by
  induction ops with
  | nil => intro mf h; exact h
  | cons op ops ih =>
    intro mf h
    obtain ⟨a, b, c⟩ := applyOp_kinds_dims mf op
    exact ih (applyOp mf op) (countsOk_congr a b c h)

/-- C1: after building a minefield with `new(width, height).with_mines(m)`
(the random draws modelled by an arbitrary number stream) and applying any
sequence of public operations (`step`, `try_resolve_step`, `flag`), every
`Empty(n)` cell has `n` equal to the exact number of `Mine` cells among its
grid-adjacent neighbors (8-connectivity, clipped at the grid boundary). -/
theorem counts_invariant (w h m : Nat) (rng : Nat → Nat) (ops : List Op) :
    countsOk (applyOps ((Minefield.new w h).withMines m rng) ops) := by
  obtain ⟨-, hco⟩ := countsOk_withMines (WF_new w h) (countsOk_new w h) m rng
  exact countsOk_applyOps ops _ hco

/-! ### Claim theorems: flood-fill correctness -/

/-- C2 counterexample: in the reachable state `exC2` (an all-zero 5-by-1 field
where cell 2 was revealed earlier while flags confined the flood, the flags
having since been removed), stepping on the hidden zero-count cell (1,0)
returns `Phew` but leaves cell 4 `Hidden`, although cell 4 belongs to the
stepped cell's maximal connected zero-count region: the already-revealed cell
2 blocks the propagation, so the step does not reveal the entire region. -/
theorem flood_region_counterexample :
    exC2.stateAt 1 = SpotState.Hidden ∧
    exC2.kindAt 1 = SpotKind.Empty 0 ∧
    Reach exC2 1 4 ∧
    (∃ n, exC2.kindAt 4 = SpotKind.Empty n) ∧
    (exC2.step 1 0).2 = StepResult.Phew ∧
    (exC2.step 1 0).1.stateAt 4 = SpotState.Hidden := by
  refine ⟨by decide, by decide, ?_, ⟨0, by decide⟩, by decide, by decide⟩
  have h12 : Reach exC2 1 2 := Reach.push 1 2 Reach.refl (by decide) (by decide)
  have h23 : Reach exC2 1 3 := Reach.push 2 3 h12 (by decide) (by decide)
  exact Reach.push 3 4 h23 (by decide) (by decide)

/-- C2 (amended): stepping on a hidden zero-count empty cell reveals exactly
its maximal connected zero-count region together with the region's bordering
numbered cells, and returns `Phew`, provided every empty cell reachable
through the zero region (the region and its border, which is the whole
reveal set) is still `Hidden` — as on a freshly built field; every other
cell, in particular every mine, keeps its state, so nothing is revealed
beyond an intervening numbered cell. -/
theorem flood_correct (mf : Minefield) (hWF : WF mf) (x y s : Nat)
    (hidx : mf.spotIndex x y = some s) (hks : mf.kindAt s = SpotKind.Empty 0)
    (hreg : ∀ j, Reach mf s j → (∃ n, mf.kindAt j = SpotKind.Empty n) →
      mf.stateAt j = SpotState.Hidden) :
    (mf.step x y).2 = StepResult.Phew ∧
    (∀ j, Reach mf s j → (∃ n, mf.kindAt j = SpotKind.Empty n) →
      (mf.step x y).1.stateAt j = SpotState.Revealed) ∧
    (∀ j, ¬ (Reach mf s j ∧ ∃ n, mf.kindAt j = SpotKind.Empty n) →
      (mf.step x y).1.stateAt j = mf.stateAt j) := by
  have hs : s < mf.field.length := spotIndex_lt hWF hidx
  rw [step_eq_zero hidx hks]
  have hkind1 : ∀ j, (mf.setState s SpotState.Revealed).kindAt j = mf.kindAt j :=
    fun j => kindAt_setState mf s _ j
  have hnbr1 : (mf.setState s SpotState.Revealed).neighborIndices
      = mf.neighborIndices := neighborIndices_congr rfl (by simp)
  have hclosure : ∀ i, Reach mf s i →
      (mf.setState s SpotState.Revealed).kindAt i = SpotKind.Empty 0 →
      ∀ j ∈ (mf.setState s SpotState.Revealed).neighborIndices i,
        Reach mf s j := by
    intro i hi hki j hj
    rw [hnbr1] at hj
    exact Reach.push i j hi (by rw [← hkind1 i]; exact hki) hj
  have hstack : ∀ i ∈ [s], Reach mf s i ∧
      (mf.setState s SpotState.Revealed).kindAt i = SpotKind.Empty 0 ∧
      (mf.setState s SpotState.Revealed).stateAt i = SpotState.Revealed := by
    intro i hi
    have hi' := List.mem_singleton.mp hi
    subst hi'
    exact ⟨Reach.refl, by rw [hkind1]; exact hks, stateAt_setState_self _ hs⟩
  have hInv0 : ∀ i, Reach mf s i →
      (mf.setState s SpotState.Revealed).kindAt i = SpotKind.Empty 0 →
      (mf.setState s SpotState.Revealed).stateAt i = SpotState.Revealed →
      i ∉ [s] →
      ∀ j ∈ (mf.setState s SpotState.Revealed).neighborIndices i,
        (∃ n, (mf.setState s SpotState.Revealed).kindAt j = SpotKind.Empty n) →
        (mf.setState s SpotState.Revealed).stateAt j ≠ SpotState.Hidden := by
    intro i hPi hki hri hnm j hj hje
    exfalso
    have hne : i ≠ s := fun hcon => hnm (by rw [hcon]; exact List.mem_singleton.mpr rfl)
    have hH : mf.stateAt i = SpotState.Hidden :=
      hreg i hPi ⟨0, by rw [← hkind1 i]; exact hki⟩
    rw [stateAt_setState_ne _ (fun hcon => hne hcon.symm), hH] at hri
    cases hri
  have hmeas : hiddenCount (mf.setState s SpotState.Revealed) +
      ([s] : List Nat).length ≤ hiddenCount (mf.setState s SpotState.Revealed) + 2 := by
    simp
  have hF := floodLoopF_complete (Reach mf s)
    (hiddenCount (mf.setState s SpotState.Revealed) + 2)
    (mf.setState s SpotState.Revealed) [s] hmeas hclosure hstack hInv0
  have hreveal : ∀ j, Reach mf s j → (∃ n, mf.kindAt j = SpotKind.Empty n) →
      (floodLoopF (hiddenCount (mf.setState s SpotState.Revealed) + 2)
        (mf.setState s SpotState.Revealed) [s]).stateAt j = SpotState.Revealed := by
    intro j hr
    induction hr with
    | refl =>
      intro _
      exact floodLoopF_mono_revealed (stateAt_setState_self _ hs)
    | push i j hri hzi hmem ih =>
      intro hje
      have hrevi := ih ⟨0, hzi⟩
      have hnH := hF i hri (by rw [hkind1]; exact hzi) hrevi j
        (by rw [hnbr1]; exact hmem)
        (by obtain ⟨n, hn⟩ := hje; exact ⟨n, by rw [hkind1]; exact hn⟩)
      by_cases hjs : j = s
      · subst hjs
        exact floodLoopF_mono_revealed (stateAt_setState_self _ hs)
      · have hjH : (mf.setState s SpotState.Revealed).stateAt j
            = SpotState.Hidden := by
          rw [stateAt_setState_ne _ (fun hcon => hjs hcon.symm)]
          exact hreg j (Reach.push i j hri hzi hmem) hje
        rcases floodLoopF_hidden_cases hjH with hcase | hcase
        · exact absurd hcase hnH
        · exact hcase
  have hframe : ∀ j, ¬ (Reach mf s j ∧ ∃ n, mf.kindAt j = SpotKind.Empty n) →
      (floodLoopF (hiddenCount (mf.setState s SpotState.Revealed) + 2)
        (mf.setState s SpotState.Revealed) [s]).stateAt j = mf.stateAt j := by
    intro j hj
    by_cases hr : Reach mf s j
    · have hne : ¬ ∃ n, mf.kindAt j = SpotKind.Empty n := fun hcon => hj ⟨hr, hcon⟩
      have hjs : j ≠ s := fun hcon => hne ⟨0, by rw [hcon]; exact hks⟩
      have h1 : (mf.setState s SpotState.Revealed).stateAt j = mf.stateAt j :=
        stateAt_setState_ne _ (fun hcon => hjs hcon.symm)
      rcases floodLoopF_stateAt _ (mf.setState s SpotState.Revealed) [s] j with
        hc | ⟨-, ⟨n, hn⟩, -⟩
      · rw [hc, h1]
      · rw [hkind1] at hn
        exact absurd ⟨n, hn⟩ hne
    · have hsound := floodLoopF_sound (Reach mf s)
        (hiddenCount (mf.setState s SpotState.Revealed) + 2)
        (mf.setState s SpotState.Revealed) [s] hclosure
        (fun i hi => ⟨(hstack i hi).1, (hstack i hi).2.1⟩) j hr
      have hjs : j ≠ s := fun hcon => hr (by rw [hcon]; exact Reach.refl)
      rw [hsound, stateAt_setState_ne _ (fun hcon => hjs hcon.symm)]
  exact ⟨rfl, hreveal, hframe⟩

theorem flood_correct_witness :
    ((Minefield.new 4 1).step 1 0).2 = StepResult.Phew ∧
    ((Minefield.new 4 1).step 1 0).1.stateAt 3 = SpotState.Revealed := by
  have hall : ∀ j, (Minefield.new 4 1).stateAt j = SpotState.Hidden := by
    intro j
    rw [Minefield.stateAt, spotAt_new]
    rfl
  obtain ⟨hA, hB, hC⟩ := flood_correct (Minefield.new 4 1)
    ⟨by decide, by decide, by decide⟩ 1 0 1 (by decide) (by decide)
    (fun j _ _ => hall j)
  refine ⟨hA, ?_⟩
  apply hB
  · have h12 : Reach (Minefield.new 4 1) 1 2 :=
      Reach.push 1 2 Reach.refl (by decide) (by decide)
    exact Reach.push 2 3 h12 (by decide) (by decide)
  · exact ⟨0, by decide⟩

end Minesweep
